import Mathlib

/-!
# code2asciidoc: documentation-comment extraction

A shallow embedding of `cmd/code2asciidoc/main.go`.

* Go strings are lists of characters, the file content is the list of its
  lines, and the package-level flag variables are an explicit `Flags` record.
* The functions of the Go standard library the program calls (`strings`,
  `path`, `path/filepath`) are modelled by what they compute on Unix paths and
  non-empty separators.
* The loops of `main` are recursions over the lines: `scanLine` is one turn of
  the inner loop, `candidate` one turn of the loop over the declarations, and an
  index expression that would panic in Go yields `none`.
* A method with a pointer receiver returns the block as it leaves it:
  `processPost` gives the block after the post split, `getAsciiDoc` the text
  together with that block.

The definitions come first, then the lemmas on strings, on `strings.Split` and
on the scan, the properties of the extraction, and the properties of the post
split, of the rendering and of the include paths.
-/

namespace Code2Asciidoc

/-- Go `string`, as its sequence of characters. -/
abbrev Str := List Char

/-! ## The `strings` functions used by the program -/

/-- Go `strings.HasPrefix(s, p)`. -/
def hasPrefix (s p : Str) : Bool := p.isPrefixOf s

/-- Go `strings.Contains(s, substr)`: `substr` occurs somewhere in `s`. -/
def contains : Str → Str → Bool
  | [], substr => substr.isPrefixOf []
  | c :: cs, substr => substr.isPrefixOf (c :: cs) || contains cs substr

/-- Go `strings.TrimPrefix(s, p)`. -/
def trimPrefix (s p : Str) : Str :=
  if hasPrefix s p then s.drop p.length else s

/-- Go `strings.TrimLeft(s, cutset)`. -/
def trimLeft (s cutset : Str) : Str := s.dropWhile (fun c => cutset.elem c)

/-- Go `strings.TrimRight(s, cutset)`. -/
def trimRight (s cutset : Str) : Str := (s.reverse.dropWhile (fun c => cutset.elem c)).reverse

/-- Go `strings.Trim(s, cutset)`: leading and trailing characters of `cutset` removed. -/
def trim (s cutset : Str) : Str := trimLeft (trimRight s cutset) cutset

/-- Worker of `strings.Split` for a non-empty separator: `skip` counts the
characters of a matched separator still to be passed over, `acc` is the
current piece, reversed. -/
def splitGo (sep : Str) : Nat → Str → Str → List Str
  | _, [], acc => [acc.reverse]
  | k + 1, _ :: cs, acc => splitGo sep k cs acc
  | 0, c :: cs, acc =>
    if sep.isPrefixOf (c :: cs) then acc.reverse :: splitGo sep (sep.length - 1) cs []
    else splitGo sep 0 cs (c :: acc)

/-- Go `strings.Split(s, sep)` for a non-empty `sep`: the pieces between the
successive leftmost non-overlapping occurrences of `sep`. -/
def split (s sep : Str) : List Str := splitGo sep 0 s []

/-! ## Markers

The string constants of the program: the marker of a documentable function, the
markers of the comment vocabulary and the cutsets of the trims. -/

def mTest : Str := "Test_".toList
def mParen : Str := "(".toList
def mTestGo : Str := "_test.go".toList
def mApisamples : Str := ".apisamples".toList
def mStartdocs : Str := "startdocs".toList
def mStartapidocs : Str := "startapidocs".toList
def mCStartdocs : Str := "// startdocs".toList
def mCStartapidocs : Str := "// startapidocs".toList
def mCEnddocs : Str := "// enddocs".toList
def mComment : Str := "//".toList
def mCTag : Str := "// tag::".toList
def mCEnd : Str := "// end::".toList
def mTab : Str := "\t".toList
def mSpace : Str := " ".toList
def mStartpostdocs : Str := "startpostdocs".toList
def mEndpostdocs : Str := "endpostdocs".toList

/-! ## Data model -/

/-- The `docOutput` struct. -/
structure docOutput where
  title : Str := []
  funcName : Str := []
  body : List Str := []
  path : Str := []
  goFilename : Str := []
  jsonFilename : Str := []
  apidocs : Bool := false
  postTitle : Str := []
  post : List Str := []
  deriving DecidableEq, Repr

/-- The constructor `newDocOutput(filePath, goFilename)`; `base[0]` always exists. -/
def newDocOutput (filePath goFilename : Str) : docOutput :=
  let base := split goFilename mTestGo
  { path := filePath
    goFilename := goFilename
    jsonFilename := base.headD [] ++ mApisamples }

/-! ## The `path` and `path/filepath` functions used by the program (Unix) -/

/-- One step of the lexical cleaning of `path.Clean`: `out` holds the elements
kept so far, last one first. -/
def cleanStep (rooted : Bool) (out : List Str) (e : Str) : List Str :=
  if e = [] ∨ e = ".".toList then out
  else if e = "..".toList then
    match out with
    | [] => if rooted then [] else [e]
    | top :: below => if top = "..".toList then e :: top :: below else below
  else e :: out

/-- Go `path.Clean(p)` (and `filepath.Clean` on Unix): the shortest path naming the
same place, by dropping empty and `.` elements and resolving inner `..`. -/
def pathClean (p : Str) : Str :=
  if p = [] then ".".toList
  else
    let rooted := hasPrefix p "/".toList
    let out := ((split p "/".toList).foldl (cleanStep rooted) []).reverse
    if rooted then "/".toList ++ "/".toList.intercalate out
    else if out = [] then ".".toList
    else "/".toList.intercalate out

/-- Go `path.Join(a, b)`: the non-empty elements joined by `/`, then cleaned. -/
def pathJoin (a b : Str) : Str :=
  if a = [] ∧ b = [] then []
  else if a = [] then pathClean b
  else if b = [] then pathClean a
  else pathClean (a ++ "/".toList ++ b)

/-- The elements of a cleaned path, as `filepath.Rel` walks them: a rooted path
starts with an empty element, and a final `/` starts no element. -/
def relElems (p : Str) : List Str :=
  let es := split p "/".toList
  if es.getLast? = some [] then es.dropLast else es

/-- The walk of `filepath.Rel` over the common leading elements: what is left
of both paths at the first difference, or when one of them runs out. -/
def relWalk : List Str → List Str → List Str × List Str
  | b :: bs, t :: ts => if b = t then relWalk bs ts else (b :: bs, t :: ts)
  | bs, ts => (bs, ts)

/-- Go `filepath.Rel(basepath, targpath)` on Unix; `none` is the error result. -/
def filepathRel (basepath targpath : Str) : Option Str :=
  let base := pathClean basepath
  let targ := pathClean targpath
  if targ = base then some ".".toList
  else
    let base := if base = ".".toList then [] else base
    if hasPrefix base "/".toList ≠ hasPrefix targ "/".toList then none
    else
      match relWalk (relElems base) (relElems targ) with
      | (b :: bs, t :: ts) =>
        if b = "..".toList then none
        else some ("/".toList.intercalate (List.replicate (bs.length + 1) "..".toList ++ t :: ts))
      | (_ :: bs, []) => some ("/".toList.intercalate (List.replicate (bs.length + 1) "..".toList))
      | ([], ts) => some ("/".toList.intercalate ts)

/-! ## Include directives -/

/-- The package-level flag variables read by the methods of `docOutput`. -/
structure Flags where
  skipJSON : Bool := false
  antora : Bool := false
  noPageBreaks : Bool := false
  noHeadings : Bool := false
  noOuterTags : Bool := false
  relativeTo : Str := []
  includePrefix : Str := []
  deriving DecidableEq, Repr

/-- The method `(d *docOutput) getIncludePath(filename)`. -/
def getIncludePath (fl : Flags) (d : docOutput) (filename : Str) : Str :=
  let fullPath := pathJoin d.path filename
  if fl.antora then "example$".toList ++ filename
  else if fl.includePrefix ≠ [] then fl.includePrefix ++ filename
  else if fl.relativeTo ≠ [] then
    match filepathRel fl.relativeTo fullPath with
    | none => fullPath
    | some relPath => relPath
  else fullPath

/-- The method `(d *docOutput) getGoInclude()`. -/
def getGoInclude (fl : Flags) (d : docOutput) : Str :=
  let includePath := getIncludePath fl d d.goFilename
  "include::".toList ++ includePath ++ "[tag=".toList ++ d.funcName ++ ",indent=0]".toList

/-- The method `(d *docOutput) getJsonInclude()`. -/
def getJsonInclude (fl : Flags) (d : docOutput) : Str :=
  let includePath := getIncludePath fl d d.jsonFilename
  "include::".toList ++ includePath ++ "[tag=".toList ++ d.funcName ++ "]".toList

/-! ## The post section and the rendering -/

/-- The variables of the loop of `processPost`: the locals `body`, `found` and
`end` (here `ended`) and the two fields of the block the loop writes. -/
structure postState where
  body : List Str := []
  found : Bool := false
  ended : Bool := false
  postTitle : Str := []
  post : List Str := []
  deriving DecidableEq, Repr

/-- One turn of the loop of `processPost`, on the body line `line`. -/
def postStep (st : postState) (line : Str) : postState :=
  if contains line mStartpostdocs then
    let t := trimPrefix line mStartpostdocs
    { st with postTitle := trim t mSpace, found := true }
  else if contains line mEndpostdocs then
    { st with ended := true }
  else if st.found && !st.ended then
    { st with post := st.post ++ [line] }
  else
    { st with body := st.body ++ [line] }

/-- The method `(d *docOutput) processPost()`: the block as the call leaves it. -/
def processPost (d : docOutput) : docOutput :=
  let st := d.body.foldl postStep { postTitle := d.postTitle, post := d.post }
  { d with body := st.body, postTitle := st.postTitle, post := st.post }

/-- The text written by `out.WriteString(line); out.WriteString("\n")` for each line. -/
def writeLines : List Str → Str
  | [] => []
  | line :: rest => line ++ "\n".toList ++ writeLines rest

/-- The method `(d *docOutput) getAsciiDoc()`: the text returned and the block
as the call leaves it (the post split is done in place).  `ToLower` stands for
Go `strings.ToLower`, whose Unicode case tables are not part of the program. -/
def getAsciiDoc (ToLower : Str → Str) (fl : Flags) (d0 : docOutput) : Str × docOutput :=
  let d := processPost d0
  let out : Str := []
  let out := if !fl.noOuterTags then out ++ ("// tag::".toList ++ d.funcName ++ "[]\n".toList)
    else out
  let out := if !fl.noPageBreaks then out ++ "<<<\n".toList else out
  let out := if !fl.noHeadings then out ++ "== ".toList ++ d.title ++ "\n".toList else out
  let out := out ++ writeLines d.body
  let out := out ++ ("\n[#".toList ++ ToLower d.title ++ "_".toList ++ ToLower d.funcName ++
    "_go]".toList)
  let out := out ++ "\n.Go ".toList
  let out := out ++ d.title
  let out := out ++ "\n[source,go]\n".toList
  let out := out ++ "----\n".toList
  let out := out ++ getGoInclude fl d
  let out := out ++ "\n----\n".toList
  let out :=
    if d.apidocs && !fl.skipJSON then
      let out := out ++ ("\n[#".toList ++ ToLower d.title ++ "_".toList ++ ToLower d.funcName ++
        "_json]".toList)
      let out := out ++ "\n.JSON ".toList
      let out := out ++ d.title
      let out := out ++ "\n[source,json]\n".toList
      let out := out ++ "----\n".toList
      let out := out ++ getJsonInclude fl d
      out ++ "\n----\n".toList
    else out
  let out :=
    if d.postTitle ≠ [] then
      let out := out ++ "\n=== ".toList
      let out := out ++ d.postTitle
      let out := out ++ "\n".toList
      let out := out ++ writeLines d.post
      out ++ "\n".toList
    else out
  let out := if !fl.noOuterTags then out ++ ("// end::".toList ++ d.funcName ++ "[]\n".toList)
    else out
  (out, d)

/-! ## Extraction (the candidate loop of `main`) -/

/-- One iteration of the inner `for` loop of `main` on the line `f[search]`;
`none` is `break`, `some d` is the block with which the scan goes on. -/
def scanLine (line : Str) (doc : docOutput) : Option docOutput :=
  let buf := trim line mTab
  if contains buf mStartdocs || contains buf mStartapidocs then
    let doc := if contains buf mStartapidocs then { doc with apidocs := true } else doc
    let buf := trimPrefix buf mCStartdocs
    let buf := trimPrefix buf mCStartapidocs
    some { doc with title := trim buf mSpace }
  else if contains buf mCEnddocs then
    none
  else if contains buf mComment then
    if contains buf mCTag then some doc
    else if contains buf mCEnd then some doc
    else
      let buf := trimPrefix buf mComment
      some { doc with body := doc.body ++ [trim buf mSpace] }
  else some doc

/-- The inner `for` loop of `main`, run over the lines `f[search+1:]`: it ends
at the end of input or at the first `break`. -/
def scanLines : List Str → docOutput → docOutput
  | [], doc => doc
  | line :: rest, doc =>
    match scanLine line doc with
    | none => doc
    | some d => scanLines rest d

/-- How one iteration of the loop over `funcs` ends. -/
inductive Outcome where
  /-- The `break` taken when the declaration is the last line. -/
  | stop
  /-- The `continue` taken when the next line has no block-start marker. -/
  | skip
  /-- The scan ran and left this block. -/
  | scanned (doc : docOutput)
  deriving DecidableEq, Repr

/-- The name taken from the declaration line `f[i]`:
`split := strings.Split(f[i], "Test_")`, `split = strings.Split(split[1], "(")`,
`doc.funcName = split[0]`; `none` is an index out of range. -/
def parseFuncName (decl : Str) : Option Str :=
  match (split decl mTest)[1]? with
  | none => none
  | some rest => (split rest mParen)[0]?

/-- The body of the loop `for _, i := range funcs`, up to the test of the
title; `none` is an index out of range. -/
def candidate (filePath goFilename : Str) (f : List Str) (i : Nat) : Option Outcome :=
  match f[i]? with
  | none => none
  | some decl =>
    match parseFuncName decl with
    | none => none
    | some name =>
      let doc := { newDocOutput filePath goFilename with funcName := name }
      if i + 1 = f.length then some Outcome.stop
      else
        match f[i + 1]? with
        | none => none
        | some next =>
          if !contains next mStartdocs && !contains next mStartapidocs then some Outcome.skip
          else some (Outcome.scanned (scanLines (f.drop (i + 1)) doc))

/-- The loop `for _, i := range funcs` with its accumulator `docbuf`. -/
def mainLoop (filePath goFilename : Str) (f : List Str) :
    List Nat → List docOutput → Option (List docOutput)
  | [], docbuf => some docbuf
  | i :: rest, docbuf =>
    match candidate filePath goFilename f i with
    | none => none
    | some Outcome.stop => some docbuf
    | some Outcome.skip => mainLoop filePath goFilename f rest docbuf
    | some (Outcome.scanned doc) =>
      mainLoop filePath goFilename f rest (if doc.title ≠ [] then docbuf ++ [doc] else docbuf)

/-- The first loop of `main`: offsets, counted from `i`, of the lines that
contain `Test_`. -/
def findFuncs (i : Nat) : List Str → List Nat
  | [] => []
  | line :: rest =>
    if contains line mTest then i :: findFuncs (i + 1) rest else findFuncs (i + 1) rest

/-- The blocks `main` hands to rendering (`docbuf`) for the lines `f`. -/
def extract (filePath goFilename : Str) (f : List Str) : Option (List docOutput) :=
  mainLoop filePath goFilename f (findFuncs 0 f) []

/-! ## Notions used to state the properties -/

/-- The title a line with a block-start marker gives: surrounding tabs trimmed,
a leading `// startdocs` and a leading `// startapidocs` removed, spaces trimmed. -/
def startTitle (l : Str) : Str :=
  trim (trimPrefix (trimPrefix (trim l mTab) mCStartdocs) mCStartapidocs) mSpace

/-- The opening region tag of a rendered block (step 1 of the rendering). -/
def openTag (fl : Flags) (d : docOutput) : Str :=
  if fl.noOuterTags then [] else "// tag::".toList ++ d.funcName ++ "[]\n".toList

/-- The closing region tag of a rendered block (step 8). -/
def closeTag (fl : Flags) (d : docOutput) : Str :=
  if fl.noOuterTags then [] else "// end::".toList ++ d.funcName ++ "[]\n".toList

/-- The page break and the section heading of a rendered block (steps 2 and 3). -/
def headLines (fl : Flags) (d : docOutput) : Str :=
  (if fl.noPageBreaks then [] else "<<<\n".toList) ++
    (if fl.noHeadings then [] else "== ".toList ++ d.title ++ "\n".toList)

/-- The source inclusion block (step 5): anchor, caption, listing with the
include directive of the Go file. -/
def goBlock (ToLower : Str → Str) (fl : Flags) (d : docOutput) : Str :=
  "\n[#".toList ++ ToLower d.title ++ "_".toList ++ ToLower d.funcName ++ "_go]".toList ++
    "\n.Go ".toList ++ d.title ++ "\n[source,go]\n".toList ++ "----\n".toList ++
    getGoInclude fl d ++ "\n----\n".toList

/-- The sample-data inclusion block (step 6): anchor, caption, listing with the
include directive of the sample-data file. -/
def jsonBlock (ToLower : Str → Str) (fl : Flags) (d : docOutput) : Str :=
  "\n[#".toList ++ ToLower d.title ++ "_".toList ++ ToLower d.funcName ++ "_json]".toList ++
    "\n.JSON ".toList ++ d.title ++ "\n[source,json]\n".toList ++ "----\n".toList ++
    getJsonInclude fl d ++ "\n----\n".toList

/-- The post section (step 7) with the heading `title` and the lines `post`. -/
def postSection (title : Str) (post : List Str) : Str :=
  "\n=== ".toList ++ title ++ "\n".toList ++ writeLines post ++ "\n".toList

/-- Neither the first nor the last character of `p` is in `cut`. -/
def edgeFree (p cut : Str) : Bool :=
  match p, p.reverse with
  | a :: _, b :: _ => !cut.elem a && !cut.elem b
  | _, _ => false

/-- No occurrence of `sep` in `P ++ R` starts at an offset inside `P`. -/
def NoMatchIn (sep P R : Str) : Prop := ∀ t, t ≠ [] → t <:+ P → ¬ sep <+: t ++ R

/-- The line carries a block-start marker, `startdocs` or `startapidocs`. -/
def hasStartMarker (l : Str) : Bool := contains l mStartdocs || contains l mStartapidocs

/-- The line carries the block-end marker `// enddocs` and no block-start marker. -/
def isEndLine (l : Str) : Bool := contains l mCEnddocs && !hasStartMarker l

/-- The block the extractor yields for the candidate offset `i`, if any: the
block left by the scan, `none` when the candidate has no documentation. -/
def extractAt (filePath goFilename : Str) (f : List Str) (i : Nat) : Option docOutput :=
  match candidate filePath goFilename f i with
  | some (Outcome.scanned doc) => some doc
  | _ => none

/-- The rendered list in the words of the specification: the extractor run on
every candidate offset in increasing order, the results with a non-empty title kept. -/
def specBlocks (filePath goFilename : Str) (f : List Str) : List docOutput :=
  ((findFuncs 0 f).filterMap (extractAt filePath goFilename f)).filter
    (fun d => decide (d.title ≠ []))

/-- A title or body text of Scenario A: no space or tab at either end and none
of the strings the extractor reacts to. -/
def Plain (x : Str) : Prop :=
  (∀ c ∈ x.head?, c ≠ ' ' ∧ c ≠ '\t') ∧ (∀ c ∈ x.getLast?, c ≠ ' ' ∧ c ≠ '\t') ∧
  contains x mComment = false ∧ contains x mTest = false ∧
  contains x mStartdocs = false ∧ contains x mStartapidocs = false ∧
  contains x "enddocs".toList = false ∧ contains x "tag::".toList = false ∧
  contains x "end::".toList = false

/-! ## Lemmas on the string functions -/

theorem contains_iff_sub (s p : Str) : contains s p = true ↔ p <:+: s := by
  induction s with
  | nil =>
    cases p with
    | nil => simp [contains]
    | cons a as => simp [contains, List.isPrefixOf]
  | cons c cs ih =>
    simp only [contains, Bool.or_eq_true, ih, List.infix_cons_iff, List.isPrefixOf_iff_prefix]

theorem contains_eq_false_iff (s p : Str) : contains s p = false ↔ ¬ p <:+: s := by
  rw [← contains_iff_sub]; simp

theorem contains_mono {s p q : Str} (hq : q <:+: p) (h : contains s q = false) :
    contains s p = false := by
  rw [contains_eq_false_iff] at *
  exact fun hp => h (hq.trans hp)

theorem contains_of_sub {s t p : Str} (hst : s <:+: t) (h : contains s p = true) :
    contains t p = true := by
  rw [contains_iff_sub] at *
  exact h.trans hst

theorem trimLeft_sub (s cut : Str) : trimLeft s cut <:+: s :=
  (List.dropWhile_suffix _).isInfix

theorem trimRight_sub (s cut : Str) : trimRight s cut <:+: s := by
  unfold trimRight
  have h := (@List.dropWhile_suffix Char s.reverse (fun c => cut.elem c)).isInfix
  rw [← List.reverse_infix] at h
  simpa using h

theorem trim_sub (s cut : Str) : trim s cut <:+: s :=
  (trimLeft_sub _ _).trans (trimRight_sub _ _)


theorem infix_dropWhile_iff {q : Char → Bool} {a : Char} {p : Str} (ha : q a = false)
    (s : Str) : (a :: p) <:+: s.dropWhile q ↔ (a :: p) <:+: s := by
  induction s with
  | nil => simp
  | cons c cs ih =>
    by_cases hc : q c = true
    · rw [List.dropWhile_cons_of_pos hc, ih, List.infix_cons_iff]
      constructor
      · exact fun h => Or.inr h
      · rintro (h | h)
        · obtain ⟨rfl, -⟩ := List.cons_prefix_cons.mp h
          rw [hc] at ha
          exact absurd ha (by simp)
        · exact h
    · rw [List.dropWhile_cons_of_neg hc]

theorem infix_trim_iff {p cut : Str} (hp : edgeFree p cut = true) (s : Str) :
    p <:+: trim s cut ↔ p <:+: s := by
  unfold edgeFree at hp
  split at hp
  · rename_i a p1 b p2 h1 h2
    simp only [Bool.and_eq_true, Bool.not_eq_true'] at hp
    unfold trim trimLeft trimRight
    rw [infix_dropWhile_iff hp.1, ← List.reverse_infix, List.reverse_reverse, h2,
      infix_dropWhile_iff hp.2, ← h2, List.reverse_infix]
  · simp at hp

theorem contains_trim {p cut : Str} (hp : edgeFree p cut = true) (s : Str) :
    contains (trim s cut) p = contains s p := by
  rw [Bool.eq_iff_iff, contains_iff_sub, contains_iff_sub, infix_trim_iff hp]

theorem trimLeft_eq_self {s cut : Str} (h : ∀ c ∈ s.head?, cut.elem c = false) :
    trimLeft s cut = s := by
  cases s with
  | nil => rfl
  | cons c cs =>
    have hc := h c (by simp)
    rw [trimLeft, List.dropWhile_cons_of_neg (by rw [hc]; simp)]

theorem trimRight_eq_self {s cut : Str} (h : ∀ c ∈ s.getLast?, cut.elem c = false) :
    trimRight s cut = s := by
  unfold trimRight
  have : (s.reverse.dropWhile fun c => cut.elem c) = s.reverse := by
    apply @trimLeft_eq_self s.reverse cut
    simpa [List.head?_reverse] using h
  rw [this, List.reverse_reverse]

theorem trim_eq_self {s cut : Str} (h1 : ∀ c ∈ s.head?, cut.elem c = false)
    (h2 : ∀ c ∈ s.getLast?, cut.elem c = false) : trim s cut = s := by
  unfold trim
  rw [trimRight_eq_self h2, trimLeft_eq_self h1]


/-! ## Lemmas on `split` -/

theorem splitGo_ne_nil (sep : Str) : ∀ (s : Str) (k : Nat) (acc : Str), splitGo sep k s acc ≠ []
  | [], k, acc => by simp [splitGo]
  | c :: cs, k + 1, acc => by
    rw [splitGo]; exact splitGo_ne_nil sep cs k acc
  | c :: cs, 0, acc => by
    rw [splitGo]
    split
    · simp
    · exact splitGo_ne_nil sep cs 0 (c :: acc)

theorem splitGo_skip (sep : Str) (xs rest acc : Str) :
    splitGo sep xs.length (xs ++ rest) acc = splitGo sep 0 rest acc := by
  induction xs with
  | nil => rfl
  | cons x xs ih => simpa [splitGo] using ih

theorem splitGo_sep {sep : Str} (hsep : sep ≠ []) (R acc : Str) :
    splitGo sep 0 (sep ++ R) acc = acc.reverse :: splitGo sep 0 R [] := by
  cases sep with
  | nil => exact absurd rfl hsep
  | cons c cs =>
    have hp : (c :: cs).isPrefixOf (c :: (cs ++ R)) = true := by
      rw [List.isPrefixOf_iff_prefix]; exact List.prefix_append (c :: cs) R
    rw [List.cons_append, splitGo, if_pos hp]
    simp only [List.length_cons, Nat.add_sub_cancel]
    rw [splitGo_skip]

theorem splitGo_pass {sep : Str} (R : Str) :
    ∀ (P acc : Str), NoMatchIn sep P R →
      splitGo sep 0 (P ++ R) acc = splitGo sep 0 R (P.reverse ++ acc)
  | [], acc, _ => rfl
  | c :: P, acc, h => by
    have hp : sep.isPrefixOf (c :: (P ++ R)) = false := by
      rw [Bool.eq_false_iff, Ne, List.isPrefixOf_iff_prefix]
      exact h (c :: P) (by simp) (List.suffix_refl _)
    have ih := splitGo_pass R P (c :: acc)
      (fun t ht hs => h t ht (hs.trans (List.suffix_cons c P)))
    rw [List.cons_append, splitGo, hp]
    simpa using ih

theorem split_at_first {sep : Str} (hsep : sep ≠ []) {P Q : Str}
    (h : NoMatchIn sep P (sep ++ Q)) : split (P ++ sep ++ Q) sep = P :: split Q sep := by
  unfold split
  rw [List.append_assoc, splitGo_pass _ _ _ h, splitGo_sep hsep]
  simp

theorem split_of_not_sub {sep s : Str} (h : ¬ sep <:+: s) : split s sep = [s] := by
  have hn : NoMatchIn sep s [] := by
    intro t _ hs hp
    rw [List.append_nil] at hp
    exact h (hp.isInfix.trans hs.isInfix)
  have := splitGo_pass [] s [] hn
  rw [List.append_nil] at this
  unfold split
  rw [this]
  simp [splitGo]

theorem exists_first_occurrence {sep : Str} :
    ∀ {s : Str}, sep <:+: s → ∃ P Q, s = P ++ sep ++ Q ∧ NoMatchIn sep P (sep ++ Q)
  | [], h => by
    have : sep = [] := List.infix_nil.mp h
    subst this
    exact ⟨[], [], rfl, fun t ht hs => absurd (List.suffix_nil.mp hs) ht⟩
  | c :: cs, h => by
    by_cases hp : sep <+: c :: cs
    · obtain ⟨Q, hQ⟩ := hp
      exact ⟨[], Q, by simpa using hQ.symm, fun t ht hs => absurd (List.suffix_nil.mp hs) ht⟩
    · have hcs : sep <:+: cs := (List.infix_cons_iff.mp h).resolve_left hp
      obtain ⟨P, Q, hs, hno⟩ := exists_first_occurrence hcs
      refine ⟨c :: P, Q, by simp [hs], ?_⟩
      intro t ht hsuf hpre
      rcases List.suffix_cons_iff.mp hsuf with heq | hsuf
      · subst heq
        apply hp
        simpa [hs] using hpre
      · exact hno t ht hsuf hpre

theorem not_infix_of_noMatchIn {sep P R : Str} (hsep : sep ≠ []) (h : NoMatchIn sep P R) :
    ¬ sep <:+: P := by
  rintro ⟨a, b, hab⟩
  have hsuf : (sep ++ b) <:+ P := ⟨a, by simpa using hab⟩
  exact h (sep ++ b) (by simp [hsep]) hsuf (by simp)


theorem mTest_eq : mTest = ['T', 'e', 's', 't', '_'] := rfl

theorem mParen_eq : mParen = ['('] := rfl

/-- Past a text without `Test_`, the `Test_` that follows it is the first one. -/
theorem noMatchIn_mTest {P : Str} (Q : Str) (h : contains P mTest = false) :
    NoMatchIn mTest P (mTest ++ Q) := by
  intro t ht hsuf hpre
  rw [contains_eq_false_iff] at h
  apply h
  rw [mTest_eq] at hpre ⊢
  match t, ht with
  | [a], _ => simp [List.cons_prefix_cons] at hpre
  | [a, b], _ => simp [List.cons_prefix_cons] at hpre
  | [a, b, c], _ => simp [List.cons_prefix_cons] at hpre
  | [a, b, c, d], _ => simp [List.cons_prefix_cons] at hpre
  | a :: b :: c :: d :: e :: t, _ =>
    simp only [List.cons_append, List.cons_prefix_cons] at hpre
    obtain ⟨rfl, rfl, rfl, rfl, rfl, -⟩ := hpre
    exact (List.prefix_append ['T', 'e', 's', 't', '_'] t).isInfix.trans hsuf.isInfix

/-- A text without the character `c` has no match of the separator `c`. -/
theorem noMatchIn_single {c : Char} {P : Str} (R : Str) (h : contains P [c] = false) :
    NoMatchIn [c] P R := by
  intro t ht hsuf hpre
  rw [contains_eq_false_iff] at h
  apply h
  cases t with
  | nil => exact absurd rfl ht
  | cons a t =>
    rw [List.cons_append, List.cons_prefix_cons] at hpre
    obtain ⟨rfl, -⟩ := hpre
    exact (List.prefix_append [c] t).isInfix.trans hsuf.isInfix

/-- No `Test_` starts inside `N ++ "("` when `N` has none: `(` is not a character of `Test_`. -/
theorem noMatchIn_mTest_paren {N : Str} (R : Str) (h : contains N mTest = false) :
    NoMatchIn mTest (N ++ mParen) R := by
  intro t ht hsuf hpre
  rw [contains_eq_false_iff] at h
  apply h
  rw [mParen_eq] at hsuf
  rcases List.suffix_concat_iff.mp hsuf with rfl | ⟨t0, rfl, h0⟩
  · exact absurd rfl ht
  · rw [mTest_eq] at hpre ⊢
    match t0, h0 with
    | [], _ => simp [List.cons_prefix_cons] at hpre
    | [a], _ => simp [List.cons_prefix_cons] at hpre
    | [a, b], _ => simp [List.cons_prefix_cons] at hpre
    | [a, b, c], _ => simp [List.cons_prefix_cons] at hpre
    | [a, b, c, d], _ => simp [List.cons_prefix_cons] at hpre
    | a :: b :: c :: d :: e :: t, h0 =>
      simp only [List.cons_append, List.cons_prefix_cons] at hpre
      obtain ⟨rfl, rfl, rfl, rfl, rfl, -⟩ := hpre
      exact (List.prefix_append ['T', 'e', 's', 't', '_'] t).isInfix.trans h0.isInfix

/-- The accumulator of `splitGo` only extends the first piece. -/
theorem splitGo_acc (sep : Str) : ∀ (s : Str) (k : Nat) (acc : Str),
    ∃ h tl, splitGo sep k s [] = h :: tl ∧ splitGo sep k s acc = (acc.reverse ++ h) :: tl
  | [], k, acc => ⟨[], [], by simp [splitGo], by simp [splitGo]⟩
  | c :: cs, k + 1, acc => by
    simpa only [splitGo] using splitGo_acc sep cs k acc
  | c :: cs, 0, acc => by
    by_cases hp : sep.isPrefixOf (c :: cs) = true
    · exact ⟨[], _, by rw [splitGo, if_pos hp]; rfl, by rw [splitGo, if_pos hp]; simp⟩
    · obtain ⟨h1, tl1, e1, e1'⟩ := splitGo_acc sep cs 0 [c]
      obtain ⟨h2, tl2, e2, e2'⟩ := splitGo_acc sep cs 0 (c :: acc)
      rw [e1] at e2
      obtain ⟨rfl, rfl⟩ := List.cons.inj e2
      refine ⟨[c] ++ h1, tl1, by rw [splitGo, if_neg hp, e1']; rfl, ?_⟩
      rw [splitGo, if_neg hp, e2']
      simp

/-- The first piece of a split: a prefix of the text, empty exactly when the
text is empty or begins with the separator. -/
theorem split_head {sep : Str} (hsep : sep ≠ []) (s : Str) :
    ∃ h tl, split s sep = h :: tl ∧ h <+: s ∧ (h = [] ↔ s = [] ∨ sep <+: s) ∧
      (sep <:+: s → tl ≠ []) := by
  by_cases hin : sep <:+: s
  · obtain ⟨P, Q, rfl, hno⟩ := exists_first_occurrence hin
    refine ⟨P, split Q sep, split_at_first hsep hno, ?_, ?_, fun _ => splitGo_ne_nil _ _ _ _⟩
    · rw [List.append_assoc]; exact List.prefix_append _ _
    · constructor
      · rintro rfl
        exact Or.inr (by simp)
      · rintro (h | h)
        · simp at h
          exact h.1
        · by_contra hP
          exact hno P hP (List.suffix_refl _) (by simpa using h)
  · refine ⟨s, [], split_of_not_sub hin, List.prefix_refl _, ?_, fun h => absurd h hin⟩
    constructor
    · exact fun h => Or.inl h
    · rintro (h | h)
      · exact h
      · exact absurd h.isInfix hin

/-- The name parsed from `P ++ "Test_" ++ N ++ "(" ++ R` is `N` when neither `P`
nor `N` contains `Test_` and `N` contains no `(`. -/
theorem parseFuncName_decl {P N : Str} (R : Str) (hP : contains P mTest = false)
    (hN : contains N mTest = false) (hNp : contains N mParen = false) :
    parseFuncName (P ++ mTest ++ N ++ mParen ++ R) = some N := by
  have hT : mTest ≠ [] := by decide
  have hPar : mParen ≠ [] := by decide
  have e1 : split (P ++ mTest ++ N ++ mParen ++ R) mTest = P :: split (N ++ mParen ++ R) mTest := by
    have := split_at_first hT (noMatchIn_mTest (N ++ mParen ++ R) hP)
    simpa [List.append_assoc] using this
  obtain ⟨h, tl, e2, e2'⟩ := splitGo_acc mTest R 0 ((N ++ mParen).reverse ++ [])
  have e3 : split (N ++ mParen ++ R) mTest = (N ++ mParen ++ h) :: tl := by
    unfold split
    rw [splitGo_pass R (N ++ mParen) [] (noMatchIn_mTest_paren R hN), e2']
    simp
  have e4 : split (N ++ mParen ++ h) mParen = N :: split h mParen :=
    split_at_first hPar (noMatchIn_single (mParen ++ h) hNp)
  unfold parseFuncName
  rw [e1, e3]
  simp only [List.getElem?_cons_succ, List.getElem?_cons_zero]
  rw [e4]
  simp

/-- In a line that contains `Test_`, the name is parsed from what follows the
first `Test_`: it is a prefix of that text and empty exactly when the text is
empty or begins with `Test_` or with `(`. -/
theorem parseFuncName_of_contains {decl : Str} (h : contains decl mTest = true) :
    ∃ P Q n, decl = P ++ mTest ++ Q ∧ contains P mTest = false ∧
      parseFuncName decl = some n ∧ n <+: Q ∧
      (n = [] ↔ Q = [] ∨ mTest <+: Q ∨ mParen <+: Q) := by
  have hT : mTest ≠ [] := by decide
  have hPar : mParen ≠ [] := by decide
  rw [contains_iff_sub] at h
  obtain ⟨P, Q, rfl, hno⟩ := exists_first_occurrence h
  obtain ⟨h1, tl1, e1, p1, n1, -⟩ := split_head hT Q
  obtain ⟨h2, tl2, e2, p2, n2, -⟩ := split_head hPar h1
  refine ⟨P, Q, h2, rfl, ?_, ?_, p2.trans p1, ?_⟩
  · rw [contains_eq_false_iff]; exact not_infix_of_noMatchIn hT hno
  · unfold parseFuncName
    rw [split_at_first hT hno, e1]
    simp [e2]
  · rw [n2, n1]
    constructor
    · rintro ((h | h) | h)
      · exact Or.inl h
      · exact Or.inr (Or.inl h)
      · exact Or.inr (Or.inr (h.trans p1))
    · rintro (h | h | h)
      · exact Or.inl (Or.inl h)
      · exact Or.inl (Or.inr h)
      · by_cases hh : h1 = []
        · exact Or.inl (n1.mp hh)
        · right
          rw [mParen_eq] at h ⊢
          obtain ⟨q, rfl⟩ := h
          cases h1 with
          | nil => exact absurd rfl hh
          | cons a h1 =>
            obtain ⟨rfl, -⟩ := List.cons_prefix_cons.mp p1
            simp [List.cons_prefix_cons]


/-! ## Lemmas on the scan -/

/-- The tests of `scanLine` read on the line itself: the markers have no tab at
either end, so trimming tabs does not change whether they occur. -/
theorem scanLine_raw (l : Str) (d : docOutput) :
    scanLine l d =
      if hasStartMarker l then
        some { (if contains l mStartapidocs then { d with apidocs := true } else d) with
          title := trim (trimPrefix (trimPrefix (trim l mTab) mCStartdocs) mCStartapidocs) mSpace }
      else if contains l mCEnddocs then none
      else if contains l mComment then
        if contains l mCTag then some d
        else if contains l mCEnd then some d
        else some { d with body := d.body ++ [trim (trimPrefix (trim l mTab) mComment) mSpace] }
      else some d := by
  have h1 : contains (trim l mTab) mStartdocs = contains l mStartdocs := contains_trim (by decide) l
  have h2 : contains (trim l mTab) mStartapidocs = contains l mStartapidocs :=
    contains_trim (by decide) l
  have h3 : contains (trim l mTab) mCEnddocs = contains l mCEnddocs := contains_trim (by decide) l
  have h4 : contains (trim l mTab) mComment = contains l mComment := contains_trim (by decide) l
  have h5 : contains (trim l mTab) mCTag = contains l mCTag := contains_trim (by decide) l
  have h6 : contains (trim l mTab) mCEnd = contains l mCEnd := contains_trim (by decide) l
  simp only [scanLine, hasStartMarker, h1, h2, h3, h4, h5, h6]

theorem scanLine_eq_none_iff (l : Str) (d : docOutput) :
    scanLine l d = none ↔ isEndLine l = true := by
  rw [scanLine_raw, isEndLine]
  by_cases h1 : hasStartMarker l = true <;> by_cases h2 : contains l mCEnddocs = true <;>
    by_cases h3 : contains l mComment = true <;> by_cases h4 : contains l mCTag = true <;>
    by_cases h5 : contains l mCEnd = true <;> simp [h1, h2, h3, h4, h5]

theorem scanLines_cons_end {l : Str} (h : isEndLine l = true) (rest : List Str) (d : docOutput) :
    scanLines (l :: rest) d = d := by
  rw [scanLines, (scanLine_eq_none_iff l d).mpr h]

/-- A scan that meets an end line after `A` gives what it gave at the end of `A`. -/
theorem scanLines_append_end {E : Str} (hE : isEndLine E = true) (B : List Str) :
    ∀ (A : List Str) (d : docOutput), scanLines (A ++ E :: B) d = scanLines (A ++ [E]) d
  | [], d => by simp [scanLines_cons_end hE]
  | a :: A, d => by
    simp only [List.cons_append, scanLines]
    cases scanLine a d with
    | none => rfl
    | some d' => exact scanLines_append_end hE B A d'

/-- An end line at the very end of the input changes nothing: the scan stops there anyway. -/
theorem scanLines_concat_end {E : Str} (hE : isEndLine E = true) :
    ∀ (A : List Str) (d : docOutput), scanLines (A ++ [E]) d = scanLines A d
  | [], d => by rw [List.nil_append, scanLines_cons_end hE]; rfl
  | a :: A, d => by
    simp only [List.cons_append, scanLines]
    cases scanLine a d with
    | none => rfl
    | some d' => exact scanLines_concat_end hE A d'


/-! ## Lemmas on the candidate loop -/

/-- The offsets found are those of the lines that contain `Test_`. -/
theorem mem_findFuncs : ∀ (f : List Str) (k i : Nat),
    i ∈ findFuncs k f ↔ ∃ j line, i = k + j ∧ f[j]? = some line ∧ contains line mTest = true
  | [], k, i => by simp [findFuncs]
  | l :: f, k, i => by
    have ih := mem_findFuncs f (k + 1) i
    have key : (∃ j line, i = k + j ∧ (l :: f)[j]? = some line ∧ contains line mTest = true) ↔
        (i = k ∧ contains l mTest = true) ∨
          ∃ j line, i = k + 1 + j ∧ f[j]? = some line ∧ contains line mTest = true := by
      constructor
      · rintro ⟨j, line, hi, hj, hc⟩
        cases j with
        | zero =>
          simp only [List.getElem?_cons_zero, Option.some.injEq] at hj
          subst hj
          exact Or.inl ⟨by simpa using hi, hc⟩
        | succ j =>
          rw [List.getElem?_cons_succ] at hj
          exact Or.inr ⟨j, line, by omega, hj, hc⟩
      · rintro (⟨hi, hc⟩ | ⟨j, line, hi, hj, hc⟩)
        · exact ⟨0, l, by simpa using hi, by simp, hc⟩
        · exact ⟨j + 1, line, by omega, by simpa using hj, hc⟩
    rw [key, findFuncs]
    by_cases hc : contains l mTest = true
    · rw [if_pos hc, List.mem_cons, ih]
      simp [hc]
    · rw [if_neg hc, ih]
      simp [hc]

theorem findFuncs_sorted : ∀ (f : List Str) (k : Nat), (findFuncs k f).Pairwise (· < ·)
  | [], k => by simp [findFuncs]
  | l :: f, k => by
    have ih := findFuncs_sorted f (k + 1)
    rw [findFuncs]
    split
    · rw [List.pairwise_cons]
      refine ⟨fun i hi => ?_, ih⟩
      obtain ⟨j, _, rfl, -, -⟩ := (mem_findFuncs f (k + 1) i).mp hi
      omega
    · exact ih

theorem findFuncs_append : ∀ (A B : List Str) (k : Nat),
    findFuncs k (A ++ B) = findFuncs k A ++ findFuncs (k + A.length) B
  | [], B, k => by simp [findFuncs]
  | a :: A, B, k => by
    have ih := findFuncs_append A B (k + 1)
    have e : k + 1 + A.length = k + (a :: A).length := by simp; omega
    rw [e] at ih
    simp only [List.cons_append, findFuncs]
    split <;> simp [ih]

/-- What one iteration of the candidate loop does at a line that contains `Test_`. -/
theorem candidate_of_contains (filePath goFilename : Str) {f : List Str} {i : Nat} {decl : Str}
    (hi : f[i]? = some decl) (hc : contains decl mTest = true) :
    ∃ name, parseFuncName decl = some name ∧
      ((i + 1 = f.length ∧ candidate filePath goFilename f i = some Outcome.stop) ∨
       (∃ next, f[i + 1]? = some next ∧ hasStartMarker next = false ∧
          candidate filePath goFilename f i = some Outcome.skip) ∨
       (∃ next, f[i + 1]? = some next ∧ hasStartMarker next = true ∧
          candidate filePath goFilename f i = some (Outcome.scanned
            (scanLines (f.drop (i + 1))
              { newDocOutput filePath goFilename with funcName := name })))) := by
  obtain ⟨P, Q, name, -, -, hn, -, -⟩ := parseFuncName_of_contains hc
  refine ⟨name, hn, ?_⟩
  have hlt : i < f.length := by
    obtain ⟨h, -⟩ := List.getElem?_eq_some.mp hi
    exact h
  by_cases hlast : i + 1 = f.length
  · left
    exact ⟨hlast, by simp [candidate, hi, hn, hlast]⟩
  · right
    have hlt' : i + 1 < f.length := by omega
    have hnext : f[i + 1]? = some f[i + 1] := List.getElem?_eq_getElem hlt'
    by_cases hs : hasStartMarker f[i + 1] = true
    · right
      refine ⟨f[i + 1], hnext, hs, ?_⟩
      unfold hasStartMarker at hs
      simp only [candidate, hi, hn, hlast, if_false, hnext]
      rw [if_neg]
      revert hs
      cases contains f[i + 1] mStartdocs <;> cases contains f[i + 1] mStartapidocs <;> simp
    · left
      rw [Bool.not_eq_true] at hs
      refine ⟨f[i + 1], hnext, hs, ?_⟩
      unfold hasStartMarker at hs
      simp only [candidate, hi, hn, hlast, if_false, hnext]
      rw [if_pos]
      revert hs
      cases contains f[i + 1] mStartdocs <;> cases contains f[i + 1] mStartapidocs <;> simp

theorem extractAt_of_stop {filePath goFilename : Str} {f : List Str} {i : Nat}
    (h : candidate filePath goFilename f i = some Outcome.stop) :
    extractAt filePath goFilename f i = none := by
  simp [extractAt, h]

theorem extractAt_of_skip {filePath goFilename : Str} {f : List Str} {i : Nat}
    (h : candidate filePath goFilename f i = some Outcome.skip) :
    extractAt filePath goFilename f i = none := by
  simp [extractAt, h]

theorem extractAt_of_scanned {filePath goFilename : Str} {f : List Str} {i : Nat}
    {d : docOutput} (h : candidate filePath goFilename f i = some (Outcome.scanned d)) :
    extractAt filePath goFilename f i = some d := by
  simp [extractAt, h]

/-- The candidate loop over increasing offsets of lines that contain `Test_`
adds to `docbuf` the extracted blocks with a title, in order. -/
theorem mainLoop_eq (filePath goFilename : Str) (f : List Str) :
    ∀ (funcs : List Nat) (docbuf : List docOutput),
      (∀ i ∈ funcs, ∃ decl, f[i]? = some decl ∧ contains decl mTest = true) →
      funcs.Pairwise (· < ·) →
      mainLoop filePath goFilename f funcs docbuf =
        some (docbuf ++ (funcs.filterMap (extractAt filePath goFilename f)).filter
          (fun d => decide (d.title ≠ [])))
  | [], docbuf, _, _ => by simp [mainLoop]
  | i :: rest, docbuf, hv, hs => by
    obtain ⟨decl, hi, hc⟩ := hv i (List.mem_cons_self _ _)
    have hv' : ∀ j ∈ rest, ∃ decl, f[j]? = some decl ∧ contains decl mTest = true :=
      fun j hj => hv j (List.mem_cons_of_mem _ hj)
    obtain ⟨hlt, hs'⟩ := List.pairwise_cons.mp hs
    obtain ⟨name, -, h | ⟨next, -, -, h⟩ | ⟨next, -, -, h⟩⟩ :=
      candidate_of_contains filePath goFilename hi hc
    · obtain ⟨hlast, h⟩ := h
      have hrest : rest = [] := by
        cases rest with
        | nil => rfl
        | cons j rest =>
          exfalso
          obtain ⟨dj, hj, -⟩ := hv j (by simp)
          obtain ⟨hjl, -⟩ := List.getElem?_eq_some.mp hj
          have := hlt j (by simp)
          omega
      subst hrest
      simp [mainLoop, h, extractAt_of_stop h]
    · rw [mainLoop, h]
      simp only []
      rw [mainLoop_eq filePath goFilename f rest docbuf hv' hs']
      simp [extractAt_of_skip h]
    · rw [mainLoop, h]
      simp only []
      rw [mainLoop_eq filePath goFilename f rest _ hv' hs']
      rw [List.filterMap_cons, extractAt_of_scanned h]
      simp only []
      by_cases ht : (scanLines (List.drop (i + 1) f)
          { newDocOutput filePath goFilename with funcName := name }).title = []
      · simp [ht]
      · simp [ht]

/-- The blocks handed to rendering are those of the specification: extraction never fails. -/
theorem extract_eq_specBlocks (filePath goFilename : Str) (f : List Str) :
    extract filePath goFilename f = some (specBlocks filePath goFilename f) := by
  unfold extract specBlocks
  rw [mainLoop_eq filePath goFilename f (findFuncs 0 f) [] ?_ (findFuncs_sorted f 0)]
  · simp
  · intro i hi
    obtain ⟨j, line, rfl, hj, hc⟩ := (mem_findFuncs f 0 i).mp hi
    exact ⟨line, by simpa using hj, hc⟩


theorem isPrefixOf_eq_false_of_contains {s p : Str} (h : contains s p = false) :
    p.isPrefixOf s = false := by
  rw [contains_eq_false_iff] at h
  rw [Bool.eq_false_iff, Ne, List.isPrefixOf_iff_prefix]
  exact fun hp => h hp.isInfix

/-- Trimming spaces from `" " ++ b` gives `b` when `b` has no space at either end. -/
theorem trim_space_cons {b : Str} (h1 : ∀ c ∈ b.head?, c ≠ ' ') (h2 : ∀ c ∈ b.getLast?, c ≠ ' ') :
    trim (' ' :: b) mSpace = b := by
  cases b with
  | nil => rfl
  | cons a b =>
    have hr : trimRight (' ' :: a :: b) mSpace = ' ' :: a :: b := by
      apply trimRight_eq_self
      intro c hc
      rw [List.getLast?_cons_cons] at hc
      have := h2 c hc
      simpa [mSpace] using this
    have ha : a ≠ ' ' := h1 a (by simp)
    unfold trim
    rw [hr, trimLeft, List.dropWhile_cons_of_pos (by simp [mSpace]),
      List.dropWhile_cons_of_neg (by simpa [mSpace] using ha)]

theorem scanLine_titleLine {T : Str} (hT : Plain T) (hne : T ≠ []) (d : docOutput) :
    scanLine ("// startdocs ".toList ++ T) d = some { d with title := T } := by
  obtain ⟨hh, hl, -, -, hs, ha, -, -, -⟩ := hT
  have hlast : ∀ c ∈ ("// startdocs ".toList ++ T).getLast?, c ≠ '\t' := by
    intro c hc
    rw [List.getLast?_append] at hc
    cases hT' : T.getLast? with
    | none => simp [List.getLast?_eq_none_iff] at hT'; exact absurd hT' hne
    | some x =>
      rw [hT'] at hc
      simp at hc
      subst hc
      exact (hl x hT').2
  have htrim : trim ("// startdocs ".toList ++ T) mTab = "// startdocs ".toList ++ T :=
    trim_eq_self (by simp [mTab]) (fun c hc => by simpa [mTab] using hlast c hc)
  have hsp : trim (' ' :: T) mSpace = T :=
    trim_space_cons (fun c hc => (hh c hc).1) (fun c hc => (hl c hc).1)
  rw [scanLine_raw, htrim]
  simp only [mStartdocs, mStartapidocs] at hs ha
  simp at hs ha
  have h1 : hasStartMarker ("// startdocs ".toList ++ T) = true := by
    simp [hasStartMarker, contains, List.isPrefixOf, mStartdocs]
  have h2 : contains ("// startdocs ".toList ++ T) mStartapidocs = false := by
    simp [contains, List.isPrefixOf, mStartapidocs, ha]
  have h3 : trimPrefix ("// startdocs ".toList ++ T) mCStartdocs = ' ' :: T := by
    simp [trimPrefix, hasPrefix, mCStartdocs, List.isPrefixOf]
  have h4 : trimPrefix (' ' :: T) mCStartapidocs = ' ' :: T := by
    simp [trimPrefix, hasPrefix, mCStartapidocs, List.isPrefixOf]
  rw [if_pos h1, h2, h3, h4, hsp]
  simp


theorem scanLine_bodyLine {b : Str} (hb : Plain b) (d : docOutput) :
    scanLine ("// ".toList ++ b) d = some { d with body := d.body ++ [b] } := by
  obtain ⟨hh, hl, hc, -, hs, ha, he, ht, hn⟩ := hb
  have hlast : ∀ c ∈ ("// ".toList ++ b).getLast?, c ≠ '\t' := by
    intro c hc
    rw [List.getLast?_append] at hc
    cases hb' : b.getLast? with
    | none =>
      rw [hb'] at hc
      simp at hc
      subst hc
      decide
    | some x =>
      rw [hb'] at hc
      simp at hc
      subst hc
      exact (hl x hb').2
  have htrim : trim ("// ".toList ++ b) mTab = "// ".toList ++ b :=
    trim_eq_self (by simp [mTab]) (fun c hc => by simpa [mTab] using hlast c hc)
  have hsp : trim (' ' :: b) mSpace = b :=
    trim_space_cons (fun c hc => (hh c hc).1) (fun c hc => (hl c hc).1)
  have pe := isPrefixOf_eq_false_of_contains he
  have pt := isPrefixOf_eq_false_of_contains ht
  have pn := isPrefixOf_eq_false_of_contains hn
  have ce : contains b mCEnddocs = false := contains_mono (by decide) hc
  have ct : contains b mCTag = false := contains_mono (by decide) hc
  have cn : contains b mCEnd = false := contains_mono (by decide) hc
  simp only [mStartdocs, mStartapidocs, mComment, mCEnddocs, mCTag, mCEnd] at hs ha hc ce ct cn
  simp at hs ha hc ce ct cn pe pt pn
  have h1 : hasStartMarker ("// ".toList ++ b) = false := by
    simp [hasStartMarker, contains, List.isPrefixOf, mStartdocs, mStartapidocs, hs, ha]
  have h2 : contains ("// ".toList ++ b) mCEnddocs = false := by
    simp [contains, List.isPrefixOf, mCEnddocs, ce, pe]
  have h3 : contains ("// ".toList ++ b) mComment = true := by
    simp [contains, List.isPrefixOf, mComment]
  have h4 : contains ("// ".toList ++ b) mCTag = false := by
    simp [contains, List.isPrefixOf, mCTag, ct, pt]
  have h5 : contains ("// ".toList ++ b) mCEnd = false := by
    simp [contains, List.isPrefixOf, mCEnd, cn, pn]
  have h6 : trimPrefix ("// ".toList ++ b) mComment = ' ' :: b := by
    simp [trimPrefix, hasPrefix, mComment, List.isPrefixOf]
  rw [scanLine_raw, htrim, h1, h2, h3, h4, h5, h6, hsp]
  simp

/-- The scan over the body lines of Scenario A and the end marker appends the texts. -/
theorem scanLines_bodyLines (rest : List Str) :
    ∀ (bs : List Str) (d : docOutput), (∀ b ∈ bs, Plain b) →
      scanLines (bs.map (fun b => "// ".toList ++ b) ++ mCEnddocs :: rest) d =
        { d with body := d.body ++ bs }
  | [], d, _ => by
    rw [List.map_nil, List.nil_append, scanLines_cons_end (by decide)]
    simp
  | b :: bs, d, h => by
    rw [List.map_cons, List.cons_append, scanLines, scanLine_bodyLine (h b (by simp))]
    simp only []
    rw [scanLines_bodyLines rest bs _ (fun x hx => h x (by simp [hx]))]
    simp

theorem findFuncs_eq_nil : ∀ (f : List Str) (k : Nat),
    (∀ l ∈ f, contains l mTest = false) → findFuncs k f = []
  | [], _, _ => rfl
  | l :: f, k, h => by
    rw [findFuncs, h l (by simp)]
    simpa using findFuncs_eq_nil f (k + 1) (fun x hx => h x (by simp [hx]))


/-- The candidate at a declaration that is the last line: the loop is left. -/
theorem candidate_last (filePath goFilename : Str) (pre : List Str) {decl name : Str}
    (hn : parseFuncName decl = some name) :
    candidate filePath goFilename (pre ++ [decl]) pre.length = some Outcome.stop := by
  have h0 : (pre ++ [decl])[pre.length]? = some decl := by simp
  simp [candidate, h0, hn]

/-- The candidate at a declaration followed by a line `next`: the scan starts
at `next` when it carries a block-start marker, else there is no documentation. -/
theorem candidate_next (filePath goFilename : Str) (pre : List Str) {decl name : Str}
    (next : Str) (rest : List Str) (hn : parseFuncName decl = some name) :
    candidate filePath goFilename (pre ++ decl :: next :: rest) pre.length =
      if hasStartMarker next = true then
        some (Outcome.scanned (scanLines (next :: rest)
          { newDocOutput filePath goFilename with funcName := name }))
      else some Outcome.skip := by
  have h0 : (pre ++ decl :: next :: rest)[pre.length]? = some decl := by
    rw [List.getElem?_append_right (Nat.le_refl _)]
    simp only [Nat.sub_self, List.getElem?_cons_zero]
  have h1 : (pre ++ decl :: next :: rest)[pre.length + 1]? = some next := by
    rw [List.getElem?_append_right (by omega)]
    simp only [Nat.add_sub_cancel_left, List.getElem?_cons_succ, List.getElem?_cons_zero]
  have hl : ¬ (pre.length + 1 = (pre ++ decl :: next :: rest).length) := by
    simp
  have hd : List.drop (pre.length + 1) (pre ++ decl :: next :: rest) = next :: rest := by
    rw [List.drop_append]
    rfl
  simp only [candidate, h0, hn, if_neg hl, h1, hd, hasStartMarker]
  cases contains next mStartdocs <;> cases contains next mStartapidocs <;> simp

/-! ## Scenario A -/

/-- C1 (Scenario A): the lines `func Test_N(t *testing.T) {`, `// startdocs T`,
`// b1`, ..., `// bn`, `// enddocs`, with `N` free of `(` and `Test_` and with
`T` (non-empty) and every `bi` plain, are extracted to exactly one block with
`funcName = N`, `title = T`, `body = [b1, ..., bn]` and `apidocs = false`, and
the source include directive of that block is
`include::<include path of the Go file>[tag=N,indent=0]`. -/
theorem scenario_A_one_block (fl : Flags) (filePath goFilename N T : Str) (bs : List Str)
    (hNt : contains N mTest = false) (hNp : contains N mParen = false)
    (hT : Plain T) (hTne : T ≠ []) (hbs : ∀ b ∈ bs, Plain b) :
    extract filePath goFilename
        (("func Test_".toList ++ N ++ "(t *testing.T) \x7b".toList) ::
          ("// startdocs ".toList ++ T) ::
          (bs.map (fun b => "// ".toList ++ b) ++ ["// enddocs".toList])) =
      some [{ newDocOutput filePath goFilename with funcName := N, title := T, body := bs }] ∧
    ({ newDocOutput filePath goFilename with
        funcName := N, title := T, body := bs } : docOutput).apidocs = false ∧
    getGoInclude fl
        { newDocOutput filePath goFilename with funcName := N, title := T, body := bs } =
      "include::".toList ++
        getIncludePath fl
          { newDocOutput filePath goFilename with funcName := N, title := T, body := bs }
          goFilename ++
        "[tag=".toList ++ N ++ ",indent=0]".toList := by
  refine ⟨?_, rfl, rfl⟩
  have hdecl : "func Test_".toList ++ N ++ "(t *testing.T) \x7b".toList =
      "func ".toList ++ mTest ++ N ++ mParen ++ "t *testing.T) \x7b".toList := by
    simp [mTest, mParen]
  have hname := @parseFuncName_decl "func ".toList N "t *testing.T) \x7b".toList
    (by decide) hNt hNp
  rw [← hdecl] at hname
  have hc0 : contains ("func Test_".toList ++ N ++ "(t *testing.T) \x7b".toList) mTest = true := by
    rw [hdecl, contains_iff_sub]
    exact ⟨"func ".toList, N ++ mParen ++ "t *testing.T) \x7b".toList, by simp⟩
  have hTt : contains ("// startdocs ".toList ++ T) mTest = false := by
    have := hT.2.2.2.1
    simp only [mTest] at this ⊢
    simp at this
    simp [contains, List.isPrefixOf, this]
  have hbt : ∀ b ∈ bs, contains ("// ".toList ++ b) mTest = false := by
    intro b hb
    have := (hbs b hb).2.2.2.1
    simp only [mTest] at this ⊢
    simp at this
    simp [contains, List.isPrefixOf, this]
  have hrest : findFuncs 1 (("// startdocs ".toList ++ T) ::
      (bs.map (fun b => "// ".toList ++ b) ++ ["// enddocs".toList])) = [] := by
    apply findFuncs_eq_nil
    intro l hl
    simp only [List.mem_cons, List.mem_append, List.mem_map, List.mem_singleton,
      List.not_mem_nil, or_false] at hl
    rcases hl with rfl | ⟨b, hb, rfl⟩ | rfl
    · exact hTt
    · exact hbt b hb
    · decide
  have hstart : contains ("// startdocs ".toList ++ T) mStartdocs = true := by
    simp [contains, List.isPrefixOf, mStartdocs]
  have hstart : hasStartMarker ("// startdocs ".toList ++ T) = true := by
    rw [hasStartMarker, hstart]
    rfl
  have hcand := candidate_next filePath goFilename [] ("// startdocs ".toList ++ T)
    (bs.map (fun b => "// ".toList ++ b) ++ ["// enddocs".toList]) hname
  rw [if_pos hstart, scanLines, scanLine_titleLine hT hTne] at hcand
  simp only [] at hcand
  have hbody := scanLines_bodyLines [] bs
    { newDocOutput filePath goFilename with funcName := N, title := T } hbs
  rw [show mCEnddocs = "// enddocs".toList from rfl] at hbody
  rw [hbody] at hcand
  unfold extract
  rw [findFuncs, if_pos hc0, hrest, mainLoop]
  simp only [List.nil_append, List.length_nil] at hcand
  rw [hcand]
  simp [mainLoop, newDocOutput, hTne]


theorem scenario_A_one_block_witness :
    extract "/src/".toList "x_test.go".toList
        (("func Test_".toList ++ "Foo".toList ++ "(t *testing.T) \x7b".toList) ::
          ("// startdocs ".toList ++ "Example One".toList) ::
          (["first line".toList, "second".toList].map (fun b => "// ".toList ++ b) ++
            ["// enddocs".toList])) =
      some [{ newDocOutput "/src/".toList "x_test.go".toList with
        funcName := "Foo".toList, title := "Example One".toList,
        body := ["first line".toList, "second".toList] }] :=
  (scenario_A_one_block {} "/src/".toList "x_test.go".toList "Foo".toList "Example One".toList
    ["first line".toList, "second".toList] (by decide) (by decide)
    (by simp [Plain, contains, List.isPrefixOf, mComment, mTest, mStartdocs, mStartapidocs])
    (by decide)
    (by simp [Plain, contains, List.isPrefixOf, mComment, mTest, mStartdocs, mStartapidocs])).1

/-! ## The rendered list -/

/-- C2: the blocks that reach rendering are exactly the extractor's results on
the candidate offsets (the lines containing `Test_`), taken in increasing
order, with a non-empty title: none has an empty title, every extracted block
with a title is among them, and they come in the order of the declaration lines. -/
theorem rendered_blocks_eq_titled_extractions (filePath goFilename : Str) (f : List Str) :
    extract filePath goFilename f = some (specBlocks filePath goFilename f) ∧
    (∀ d ∈ specBlocks filePath goFilename f, d.title ≠ []) ∧
    (∀ i ∈ findFuncs 0 f, ∀ d, extractAt filePath goFilename f i = some d → d.title ≠ [] →
      d ∈ specBlocks filePath goFilename f) ∧
    (findFuncs 0 f).Pairwise (· < ·) ∧
    (∀ i, i ∈ findFuncs 0 f ↔ ∃ line, f[i]? = some line ∧ contains line mTest = true) := by
  refine ⟨extract_eq_specBlocks filePath goFilename f, ?_, ?_, findFuncs_sorted f 0, ?_⟩
  · intro d hd
    simpa using (List.mem_filter.mp hd).2
  · intro i hi d hd ht
    exact List.mem_filter.mpr ⟨List.mem_filterMap.mpr ⟨i, hi, hd⟩, by simpa using ht⟩
  · intro i
    rw [mem_findFuncs]
    constructor
    · rintro ⟨j, line, rfl, hj, hc⟩
      exact ⟨line, by simpa using hj, hc⟩
    · rintro ⟨line, hj, hc⟩
      exact ⟨i, line, by simp, hj, hc⟩

/-! ## The function name -/

/-- C3, at the failing input: for `func Test_Login_Test_Case(t *testing.T) {`
the name taken is `Login_`, the text up to the second `Test_`, not
`Login_Test_Case`. -/
theorem funcName_cut_at_second_marker :
    parseFuncName "func Test_Login_Test_Case(t *testing.T) \x7b".toList = some "Login_".toList ∧
    (extract [] "x_test.go".toList
      ["func Test_Login_Test_Case(t *testing.T) \x7b".toList, "// startdocs X".toList,
        "// enddocs".toList]).map (List.map docOutput.funcName) = some ["Login_".toList] ∧
    "Login_".toList ≠ "Login_Test_Case".toList := by
  decide

/-- C4 fails: the declaration `func Test_(t *testing.T) {` with a documented
block gives a kept block whose function name is empty. -/
theorem kept_block_with_empty_funcName :
    (extract [] "x_test.go".toList
      ["func Test_(t *testing.T) \x7b".toList, "// startdocs X".toList,
        "// enddocs".toList]).map (List.map (fun d => (d.funcName, d.title))) =
      some [([], "X".toList)] := by
  decide


/-- The scan never touches the function name. -/
theorem scanLines_funcName : ∀ (ls : List Str) (d : docOutput),
    (scanLines ls d).funcName = d.funcName
  | [], _ => rfl
  | l :: ls, d => by
    rw [scanLines]
    cases h : scanLine l d with
    | none => rfl
    | some d' =>
      simp only []
      rw [scanLines_funcName ls d']
      rw [scanLine_raw] at h
      split at h
      · cases h
        split <;> rfl
      · split at h
        · cases h
        · split at h
          · split at h
            · cases h; rfl
            · split at h <;> cases h <;> rfl
          · cases h; rfl

/-- C4, amended: every kept block has a non-empty title, and its function name
is parsed from a line `P ++ "Test_" ++ Q` of the input (`P` without `Test_`);
when `Q` contains no further `Test_`, the name is a prefix of `Q` that is empty
exactly when `Q` is empty or begins with `(`. -/
theorem kept_block_funcName (filePath goFilename : Str) (f : List Str) (ds : List docOutput)
    (h : extract filePath goFilename f = some ds) (d : docOutput) (hd : d ∈ ds) :
    d.title ≠ [] ∧
    ∃ (i : Nat) (P Q : Str), f[i]? = some (P ++ mTest ++ Q) ∧ contains P mTest = false ∧
      (contains Q mTest = false →
        d.funcName <+: Q ∧ (d.funcName = [] ↔ Q = [] ∨ mParen <+: Q)) := by
  rw [extract_eq_specBlocks] at h
  cases h
  obtain ⟨hm, ht⟩ := List.mem_filter.mp hd
  refine ⟨by simpa using ht, ?_⟩
  obtain ⟨i, hi, he⟩ := List.mem_filterMap.mp hm
  obtain ⟨j, line, rfl, hj, hc⟩ := (mem_findFuncs f 0 i).mp hi
  rw [Nat.zero_add] at he
  obtain ⟨P, Q, n, rfl, hP, hn, hpre, hiff⟩ := parseFuncName_of_contains hc
  obtain ⟨name, hname, hcase⟩ := candidate_of_contains filePath goFilename hj hc
  rw [hn] at hname
  cases hname
  have hf : d.funcName = n := by
    rcases hcase with ⟨-, hcand⟩ | ⟨_, -, -, hcand⟩ | ⟨_, -, -, hcand⟩
    · rw [extractAt_of_stop hcand] at he; cases he
    · rw [extractAt_of_skip hcand] at he; cases he
    · rw [extractAt_of_scanned hcand] at he
      cases he
      exact scanLines_funcName _ _
  refine ⟨j, P, Q, hj, hP, fun hQ => ⟨hf ▸ hpre, ?_⟩⟩
  rw [contains_eq_false_iff] at hQ
  rw [hf, hiff]
  constructor
  · rintro (h | h | h)
    · exact Or.inl h
    · exact absurd h.isInfix hQ
    · exact Or.inr h
  · rintro (h | h)
    · exact Or.inl h
    · exact Or.inr (Or.inr h)

theorem kept_block_funcName_witness :
    "X".toList ≠ [] ∧
    ∃ (i : Nat) (P Q : Str),
      ["func Test_Foo(t *testing.T) \x7b".toList, "// startdocs X".toList,
        "// enddocs".toList][i]? = some (P ++ mTest ++ Q) ∧
      contains P mTest = false ∧
      (contains Q mTest = false →
        "Foo".toList <+: Q ∧ ("Foo".toList = [] ↔ Q = [] ∨ mParen <+: Q)) :=
  kept_block_funcName [] "x_test.go".toList
    ["func Test_Foo(t *testing.T) \x7b".toList, "// startdocs X".toList, "// enddocs".toList]
    [{ newDocOutput [] "x_test.go".toList with funcName := "Foo".toList, title := "X".toList }]
    (by decide)
    { newDocOutput [] "x_test.go".toList with funcName := "Foo".toList, title := "X".toList }
    (List.mem_singleton.mpr rfl)

/-! ## Undocumented functions -/

/-- C5: a candidate whose next line does not exist, or carries neither
`startdocs` nor `startapidocs`, produces no block, whatever the later lines are. -/
theorem no_start_marker_no_block (filePath goFilename : Str) (pre : List Str) (decl next : Str)
    (rest : List Str) (hc : contains decl mTest = true) (hn : hasStartMarker next = false) :
    candidate filePath goFilename (pre ++ [decl]) pre.length = some Outcome.stop ∧
    extractAt filePath goFilename (pre ++ [decl]) pre.length = none ∧
    candidate filePath goFilename (pre ++ decl :: next :: rest) pre.length = some Outcome.skip ∧
    extractAt filePath goFilename (pre ++ decl :: next :: rest) pre.length = none := by
  obtain ⟨_, _, name, -, -, hname, -, -⟩ := parseFuncName_of_contains hc
  have h1 := candidate_last filePath goFilename pre hname
  have h2 := candidate_next filePath goFilename pre next rest hname
  rw [hn] at h2
  simp only [Bool.false_eq_true, if_false] at h2
  exact ⟨h1, extractAt_of_stop h1, h2, extractAt_of_skip h2⟩

theorem no_start_marker_no_block_witness :
    extractAt [] "x_test.go".toList ["func Test_A(t *testing.T) \x7b".toList] 0 = none ∧
    extractAt [] "x_test.go".toList
      ["func Test_A(t *testing.T) \x7b".toList, "\tx := 1".toList, "\t// startdocs Late".toList,
        "\t// enddocs".toList] 0 = none :=
  have h := no_start_marker_no_block [] "x_test.go".toList []
    "func Test_A(t *testing.T) \x7b".toList "\tx := 1".toList
    ["\t// startdocs Late".toList, "\t// enddocs".toList] (by decide) (by decide)
  ⟨h.2.1, h.2.2.2⟩


/-! ## The lines of a scan -/

theorem trimLeft_replicate (c : Char) (X : Str) :
    ∀ n : Nat, trimLeft (List.replicate n c ++ X) [c] = trimLeft X [c]
  | 0 => rfl
  | n + 1 => by
    rw [List.replicate_succ, List.cons_append, trimLeft, List.dropWhile_cons_of_pos (by simp)]
    exact trimLeft_replicate c X n

/-- Tab indentation and trailing tabs around a text that has no tab at either end are trimmed. -/
theorem trim_tabs {X : Str} (hne : X ≠ []) (hh : ∀ c ∈ X.head?, c ≠ '\t')
    (hl : ∀ c ∈ X.getLast?, c ≠ '\t') (n m : Nat) :
    trim (List.replicate n '\t' ++ X ++ List.replicate m '\t') mTab = X := by
  have hX : trimLeft X mTab = X := trimLeft_eq_self (fun c hc => by simpa [mTab] using hh c hc)
  have hr : trimRight (List.replicate n '\t' ++ X ++ List.replicate m '\t') mTab =
      List.replicate n '\t' ++ X := by
    have h1 : trimRight (List.replicate n '\t' ++ X) mTab = List.replicate n '\t' ++ X := by
      apply trimRight_eq_self
      intro c hc
      rw [List.getLast?_append] at hc
      cases hx : X.getLast? with
      | none => exact absurd (List.getLast?_eq_none_iff.mp hx) hne
      | some x =>
        rw [hx] at hc
        simp at hc
        subst hc
        simpa [mTab] using hl x hx
    unfold trimRight at h1 ⊢
    rw [List.reverse_append, List.reverse_replicate]
    have := trimLeft_replicate '\t' (List.replicate n '\t' ++ X).reverse m
    unfold trimLeft at this
    rw [show mTab = ['\t'] from rfl, this]
    exact h1
  unfold trim
  rw [hr, show mTab = ['\t'] from rfl, trimLeft_replicate]
  exact hX

/-- C6 fails: the space-indented line `    // startdocs Example One` gives the
title `// startdocs Example One`, not `Example One`. -/
theorem space_indented_start_marker_title :
    (scanLines ["    // startdocs Example One".toList] {}).title =
      "// startdocs Example One".toList ∧
    "// startdocs Example One".toList ≠ "Example One".toList := by
  decide

/-- C6, amended: for a line made of tab indentation, `// startdocs` or
`// startapidocs`, a text `R` and trailing tabs, where `R` does not end in a tab
and does not begin with `// startapidocs`, the title is set to `R` with
surrounding spaces removed (and `startapidocs` sets `apidocs`). -/
theorem tab_indented_start_marker_title (n m : Nat) (R : Str) (d : docOutput)
    (hR : ∀ c ∈ R.getLast?, c ≠ '\t') (hR2 : hasPrefix R mCStartapidocs = false) :
    (scanLines [List.replicate n '\t' ++ (mCStartdocs ++ R) ++ List.replicate m '\t'] d).title =
      trim R mSpace ∧
    (scanLines [List.replicate n '\t' ++ (mCStartapidocs ++ R) ++ List.replicate m '\t'] d).title =
      trim R mSpace ∧
    (scanLines [List.replicate n '\t' ++ (mCStartapidocs ++ R) ++ List.replicate m '\t'] d).apidocs =
      true := by
  have hlast : ∀ (M : Str), M ≠ [] → (∀ c ∈ M.getLast?, c ≠ '\t') →
      ∀ c ∈ (M ++ R).getLast?, c ≠ '\t' := by
    intro M _ hM c hc
    rw [List.getLast?_append] at hc
    cases hx : R.getLast? with
    | none =>
      rw [hx] at hc
      exact hM c (by simpa using hc)
    | some x =>
      rw [hx] at hc
      simp at hc
      subst hc
      exact hR x hx
  have t1 := @trim_tabs (mCStartdocs ++ R) (by simp [mCStartdocs]) (by simp [mCStartdocs])
    (hlast mCStartdocs (by decide) (by decide)) n m
  have t2 := @trim_tabs (mCStartapidocs ++ R) (by simp [mCStartapidocs])
    (by simp [mCStartapidocs]) (hlast mCStartapidocs (by decide) (by decide)) n m
  have c1 : contains (mCStartdocs ++ R) mStartdocs = true := by
    rw [contains_iff_sub]
    exact ⟨"// ".toList, R, by simp [mStartdocs, mCStartdocs]⟩
  have c2 : contains (mCStartapidocs ++ R) mStartapidocs = true := by
    rw [contains_iff_sub]
    exact ⟨"// ".toList, R, by simp [mStartapidocs, mCStartapidocs]⟩
  have p1 : trimPrefix (mCStartdocs ++ R) mCStartdocs = R := by
    simp [trimPrefix, hasPrefix, mCStartdocs, List.isPrefixOf]
  have p2 : trimPrefix R mCStartapidocs = R := by
    simp [trimPrefix, hR2]
  have p3 : trimPrefix (mCStartapidocs ++ R) mCStartdocs = mCStartapidocs ++ R := by
    simp [trimPrefix, hasPrefix, mCStartdocs, mCStartapidocs, List.isPrefixOf]
  have p4 : trimPrefix (mCStartapidocs ++ R) mCStartapidocs = R := by
    simp [trimPrefix, hasPrefix, mCStartapidocs, List.isPrefixOf]
  refine ⟨?_, ?_, ?_⟩
  · simp only [scanLines, scanLine, t1, c1, Bool.true_or, if_true, p1, p2]
  · simp only [scanLines, scanLine, t2, c2, Bool.or_true, if_true, p3, p4]
  · simp only [scanLines, scanLine, t2, c2, Bool.or_true, if_true, p3, p4]

theorem tab_indented_start_marker_title_witness :
    (scanLines ["\t\t// startdocs  Example One ".toList] {}).title = "Example One".toList ∧
    (scanLines ["\t// startapidocs Two\t".toList] {}).title = "Two".toList ∧
    (scanLines ["\t// startapidocs Two\t".toList] {}).apidocs = true :=
  have h1 := tab_indented_start_marker_title 2 0 "  Example One ".toList {} (by decide) (by decide)
  have h2 := tab_indented_start_marker_title 1 1 " Two".toList {} (by decide) (by decide)
  ⟨h1.1, h2.2.1, h2.2.2⟩


/-- C7 fails: a code line with a trailing comment, met during a scan, is
appended to the body whole. -/
theorem code_line_with_comment_appended :
    (scanLines ["\tx := 1 // set x".toList] {}).body = ["x := 1 // set x".toList] ∧
    hasPrefix (trim (trim "\tx := 1 // set x".toList mTab) mSpace) mComment = false := by
  decide

/-- C7, amended: a line that contains neither `//` nor a block-start marker
leaves the block unchanged, and the scan goes on. -/
theorem line_without_comment_frame (l : Str) (d : docOutput)
    (hs : hasStartMarker l = false) (hc : contains l mComment = false) :
    scanLine l d = some d := by
  have he : contains l mCEnddocs = false := contains_mono (by decide) hc
  rw [scanLine_raw, hs, he, hc]
  rfl

theorem line_without_comment_frame_witness :
    scanLine "\tx := compute(1, 2)".toList { title := "T".toList, body := ["a".toList] } =
      some { title := "T".toList, body := ["a".toList] } :=
  line_without_comment_frame "\tx := compute(1, 2)".toList
    { title := "T".toList, body := ["a".toList] } (by decide) (by decide)

/-- C8 fails: the tag line `//tag::x[]`, written without a space after `//`,
is appended to the body as `tag::x[]`. -/
theorem tag_line_without_space_appended :
    (scanLines ["//tag::x[]".toList] {}).body = ["tag::x[]".toList] ∧
    (scanLines ["//  end::x[]".toList] {}).body = ["end::x[]".toList] := by
  decide

/-- C8, amended: a line that contains `// tag::` or `// end::` (the marker one
space after the comment prefix) adds nothing to the body, and unless it also
carries a block-start marker or `// enddocs` it leaves the block unchanged and
the scan goes on. -/
theorem tag_line_skipped (l : Str) (d : docOutput)
    (h : contains l mCTag = true ∨ contains l mCEnd = true) :
    (scanLines [l] d).body = d.body ∧
    (scanLine l d = some d ∨ hasStartMarker l = true ∨ contains l mCEnddocs = true) := by
  have hc : contains l mComment = true := by
    rcases h with h | h
    · rw [contains_iff_sub] at h ⊢
      exact (show mComment <:+: mCTag by decide).trans h
    · rw [contains_iff_sub] at h ⊢
      exact (show mComment <:+: mCEnd by decide).trans h
  have hr := scanLine_raw l d
  by_cases h1 : hasStartMarker l = true
  · rw [if_pos h1] at hr
    refine ⟨?_, Or.inr (Or.inl h1)⟩
    rw [scanLines, hr]
    simp only [scanLines]
    split <;> rfl
  · by_cases h2 : contains l mCEnddocs = true
    · rw [if_neg h1, if_pos h2] at hr
      refine ⟨?_, Or.inr (Or.inr h2)⟩
      rw [scanLines, hr]
    · have hd : scanLine l d = some d := by
        rw [hr, if_neg h1, if_neg h2, if_pos hc]
        rcases h with h | h
        · rw [if_pos h]
        · rw [h]
          split <;> rfl
      refine ⟨?_, Or.inl hd⟩
      rw [scanLines, hd]
      rfl

theorem tag_line_skipped_witness :
    (scanLines ["\t// tag::Foo[]".toList] { body := ["a".toList] }).body = ["a".toList] ∧
    (scanLine "\t// tag::Foo[]".toList { body := ["a".toList] } = some { body := ["a".toList] } ∨
      hasStartMarker "\t// tag::Foo[]".toList = true ∨
      contains "\t// tag::Foo[]".toList mCEnddocs = true) :=
  tag_line_skipped "\t// tag::Foo[]".toList { body := ["a".toList] } (Or.inl (by decide))

/-! ## The end of a scan -/

/-- C9: a line with `// enddocs` and no block-start marker stops the scan and
adds nothing: the block is the one the lines before it give, so the lines
after it can be replaced by any others without changing the candidate's block. -/
theorem scan_stops_at_end_marker (filePath goFilename : Str) (pre : List Str) (decl : Str)
    (A : List Str) (E : Str) (B B' : List Str) (d : docOutput) (hE : isEndLine E = true) :
    scanLine E d = none ∧
    scanLines (A ++ E :: B) d = scanLines A d ∧
    candidate filePath goFilename (pre ++ decl :: (A ++ E :: B)) pre.length =
      candidate filePath goFilename (pre ++ decl :: (A ++ E :: B')) pre.length ∧
    extractAt filePath goFilename (pre ++ decl :: (A ++ E :: B)) pre.length =
      extractAt filePath goFilename (pre ++ decl :: (A ++ E :: B')) pre.length := by
  have hscan : ∀ (C : List Str) (d : docOutput), scanLines (A ++ E :: C) d = scanLines A d :=
    fun C d => (scanLines_append_end hE C A d).trans (scanLines_concat_end hE A d)
  have hcand : candidate filePath goFilename (pre ++ decl :: (A ++ E :: B)) pre.length =
      candidate filePath goFilename (pre ++ decl :: (A ++ E :: B')) pre.length := by
    cases hp : parseFuncName decl with
    | none =>
      have h0 : ∀ C : List Str, (pre ++ decl :: C)[pre.length]? = some decl := by
        intro C
        rw [List.getElem?_append_right (Nat.le_refl _)]
        simp only [Nat.sub_self, List.getElem?_cons_zero]
      simp only [candidate, h0, hp]
    | some name =>
      cases A with
      | nil =>
        simp only [List.nil_append]
        rw [candidate_next filePath goFilename pre E B hp,
          candidate_next filePath goFilename pre E B' hp]
        have hs : hasStartMarker E = false := by
          unfold isEndLine at hE
          revert hE
          cases hasStartMarker E <;> simp
        rw [hs]
        rfl
      | cons a A =>
        simp only [List.cons_append]
        rw [candidate_next filePath goFilename pre a (A ++ E :: B) hp,
          candidate_next filePath goFilename pre a (A ++ E :: B') hp]
        have e1 := hscan B { newDocOutput filePath goFilename with funcName := name }
        have e2 := hscan B' { newDocOutput filePath goFilename with funcName := name }
        rw [List.cons_append] at e1 e2
        rw [e1, e2]
  refine ⟨(scanLine_eq_none_iff E d).mpr hE, hscan B d, hcand, ?_⟩
  unfold extractAt
  rw [hcand]

theorem scan_stops_at_end_marker_witness :
    scanLines (["// startdocs T".toList, "// a".toList] ++
        "\t// enddocs".toList :: ["// b".toList, "// startdocs U".toList]) {} =
      scanLines ["// startdocs T".toList, "// a".toList] {} :=
  (scan_stops_at_end_marker [] "x_test.go".toList [] "func Test_A(t *testing.T) \x7b".toList
    ["// startdocs T".toList, "// a".toList] "\t// enddocs".toList
    ["// b".toList, "// startdocs U".toList] [] {} (by decide)).2.1

/-- C10 (Scenario D): extraction never fails, and a block whose scan runs to
the end of input is built as if the input ended with `// enddocs`: the kept
blocks of `L` and of `L ++ ["// enddocs"]` are the same. -/
theorem unterminated_block_as_if_terminated (filePath goFilename : Str) (L : List Str) :
    (∃ ds, extract filePath goFilename L = some ds) ∧
    extract filePath goFilename (L ++ ["// enddocs".toList]) = extract filePath goFilename L := by
  refine ⟨⟨_, extract_eq_specBlocks filePath goFilename L⟩, ?_⟩
  have hE : isEndLine "// enddocs".toList = true := by decide
  rw [extract_eq_specBlocks, extract_eq_specBlocks]
  unfold specBlocks
  have hf : findFuncs 0 (L ++ ["// enddocs".toList]) = findFuncs 0 L := by
    rw [findFuncs_append]
    have : findFuncs (0 + L.length) ["// enddocs".toList] = [] :=
      findFuncs_eq_nil _ _ (by intro l hl; rw [List.mem_singleton] at hl; subst hl; decide)
    rw [this, List.append_nil]
  rw [hf]
  congr 2
  apply List.filterMap_congr
  intro i hi
  obtain ⟨j, decl, rfl, hj, hc⟩ := (mem_findFuncs L 0 i).mp hi
  rw [Nat.zero_add]
  obtain ⟨hlt, hget⟩ := List.getElem?_eq_some.mp hj
  obtain ⟨_, _, name, -, -, hname, -, -⟩ := parseFuncName_of_contains hc
  -- split the input at the declaration line
  have hL : L = L.take j ++ decl :: L.drop (j + 1) := by
    conv_lhs => rw [← List.take_append_drop j L, List.drop_eq_getElem_cons hlt, hget]
  have hlen : (L.take j).length = j := by
    rw [List.length_take]; omega
  cases hrest : L.drop (j + 1) with
  | nil =>
    rw [hrest] at hL
    have h1 := candidate_last filePath goFilename (L.take j) hname
    have h2 := candidate_next filePath goFilename (L.take j) "// enddocs".toList [] hname
    rw [hlen] at h1 h2
    rw [← hL] at h1
    have hL' : L ++ ["// enddocs".toList] = L.take j ++ decl :: ["// enddocs".toList] := by
      conv_lhs => rw [hL]
      simp
    rw [← hL'] at h2
    rw [if_neg (by decide)] at h2
    rw [extractAt_of_stop h1, extractAt_of_skip h2]
  | cons next rest =>
    rw [hrest] at hL
    have h1 := candidate_next filePath goFilename (L.take j) next rest hname
    have h2 := candidate_next filePath goFilename (L.take j) next
      (rest ++ ["// enddocs".toList]) hname
    rw [hlen] at h1 h2
    rw [← hL] at h1
    have hL' : L ++ ["// enddocs".toList] =
        L.take j ++ decl :: next :: (rest ++ ["// enddocs".toList]) := by
      conv_lhs => rw [hL]
      simp
    rw [← hL'] at h2
    have hsc := scanLines_concat_end hE (next :: rest)
      { newDocOutput filePath goFilename with funcName := name }
    rw [List.cons_append] at hsc
    rw [hsc] at h2
    unfold extractAt
    rw [h1, h2]


/-! ## Lemmas on the post split -/

theorem postStep_start {line : Str} (h : contains line mStartpostdocs = true) (st : postState) :
    postStep st line =
      { st with postTitle := trim (trimPrefix line mStartpostdocs) mSpace, found := true } := by
  simp [postStep, h]

theorem postStep_end {line : Str} (hs : contains line mStartpostdocs = false)
    (he : contains line mEndpostdocs = true) (st : postState) :
    postStep st line = { st with ended := true } := by
  simp [postStep, hs, he]

theorem postStep_other {line : Str} (hs : contains line mStartpostdocs = false)
    (he : contains line mEndpostdocs = false) (st : postState) :
    postStep st line =
      if st.found && !st.ended then { st with post := st.post ++ [line] }
      else { st with body := st.body ++ [line] } := by
  simp [postStep, hs, he]

/-- Lines without a marker all go to `post` inside an open post region and to `body` otherwise. -/
theorem foldl_postStep_other : ∀ (ls : List Str) (st : postState),
    (∀ l ∈ ls, contains l mStartpostdocs = false ∧ contains l mEndpostdocs = false) →
    ls.foldl postStep st =
      if st.found && !st.ended then { st with post := st.post ++ ls }
      else { st with body := st.body ++ ls }
  | [], st, _ => by simp
  | l :: ls, st, h => by
    have hl := h l (by simp)
    have ih := fun st' => foldl_postStep_other ls st' (fun x hx => h x (by simp [hx]))
    rw [List.foldl_cons, postStep_other hl.1 hl.2, ih]
    by_cases hc : (st.found && !st.ended) = true
    · simp [hc]
    · simp [hc]

/-- Without a post-start marker the loop keeps `post` and `postTitle` and only
drops the lines with the post-end marker from the body. -/
theorem foldl_postStep_no_start : ∀ (ls : List Str) (st : postState),
    st.found = false → (∀ l ∈ ls, contains l mStartpostdocs = false) →
    ls.foldl postStep st =
      { st with
        body := st.body ++ ls.filter (fun l => !contains l mEndpostdocs),
        ended := st.ended || ls.any (fun l => contains l mEndpostdocs) }
  | [], st, _, _ => by simp
  | l :: ls, st, hf, h => by
    have hl := h l (by simp)
    have ih := fun st' hf' => foldl_postStep_no_start ls st' hf' (fun x hx => h x (by simp [hx]))
    rw [List.foldl_cons]
    by_cases he : contains l mEndpostdocs = true
    · rw [postStep_end hl he, ih { st with ended := true } hf]
      simp [he]
    · rw [Bool.not_eq_true] at he
      rw [postStep_other hl he, if_neg (by simp [hf]),
        ih { st with body := st.body ++ [l] } hf]
      simp [he]

/-- The lines that follow the last post-start marker do not change the post title. -/
theorem foldl_postStep_postTitle : ∀ (ls : List Str) (st : postState),
    (∀ l ∈ ls, contains l mStartpostdocs = false) →
    (ls.foldl postStep st).postTitle = st.postTitle
  | [], _, _ => rfl
  | l :: ls, st, h => by
    have hl := h l (by simp)
    rw [List.foldl_cons, foldl_postStep_postTitle ls _ (fun x hx => h x (by simp [hx]))]
    by_cases he : contains l mEndpostdocs = true
    · rw [postStep_end hl he]
    · rw [Bool.not_eq_true] at he
      rw [postStep_other hl he]
      split <;> rfl

/-- The body kept by the loop never holds a line with a post marker. -/
theorem foldl_postStep_body : ∀ (ls : List Str) (st : postState),
    (∀ l ∈ st.body, contains l mStartpostdocs = false ∧ contains l mEndpostdocs = false) →
    ∀ l ∈ (ls.foldl postStep st).body,
      contains l mStartpostdocs = false ∧ contains l mEndpostdocs = false
  | [], _, h => h
  | x :: ls, st, h => by
    rw [List.foldl_cons]
    apply foldl_postStep_body ls
    by_cases hs : contains x mStartpostdocs = true
    · rw [postStep_start hs]; exact h
    · rw [Bool.not_eq_true] at hs
      by_cases he : contains x mEndpostdocs = true
      · rw [postStep_end hs he]; exact h
      · rw [Bool.not_eq_true] at he
        rw [postStep_other hs he]
        split
        · exact h
        · intro l hl
          simp only [List.mem_append, List.mem_singleton] at hl
          rcases hl with hl | rfl
          · exact h l hl
          · exact ⟨hs, he⟩

theorem processPost_no_start {d : docOutput}
    (h : ∀ l ∈ d.body, contains l mStartpostdocs = false) :
    processPost d = { d with body := d.body.filter (fun l => !contains l mEndpostdocs) } := by
  unfold processPost
  rw [foldl_postStep_no_start d.body _ rfl h]
  simp

theorem processPost_body_clean (d : docOutput) :
    ∀ l ∈ (processPost d).body,
      contains l mStartpostdocs = false ∧ contains l mEndpostdocs = false :=
  foldl_postStep_body d.body _ (by simp)

/-- The post split changes nothing when run on its own result. -/
theorem processPost_idem (d : docOutput) : processPost (processPost d) = processPost d := by
  have hc := processPost_body_clean d
  rw [processPost_no_start (fun l hl => (hc l hl).1)]
  have : (processPost d).body.filter (fun l => !contains l mEndpostdocs) = (processPost d).body := by
    rw [List.filter_eq_self]
    intro l hl
    simp [(hc l hl).2]
  rw [this]


theorem dropWhile_concat_pos {p : Char → Bool} {c : Char} (hc : p c = true) :
    ∀ xs : Str, (xs ++ [c]).dropWhile p =
      if xs.dropWhile p = [] then [] else xs.dropWhile p ++ [c]
  | [] => by simp [List.dropWhile_cons, hc]
  | x :: xs => by
    by_cases hx : p x = true
    · rw [List.cons_append, List.dropWhile_cons_of_pos hx, List.dropWhile_cons_of_pos hx]
      exact dropWhile_concat_pos hc xs
    · rw [List.cons_append, List.dropWhile_cons_of_neg hx, List.dropWhile_cons_of_neg hx]
      simp

/-- A leading space does not change what trimming spaces gives. -/
theorem trim_space_cons_eq (T : Str) : trim (' ' :: T) mSpace = trim T mSpace := by
  have hc : (fun c => mSpace.elem c) ' ' = true := by decide
  unfold trim trimRight
  rw [List.reverse_cons, dropWhile_concat_pos hc]
  by_cases h : T.reverse.dropWhile (fun c => mSpace.elem c) = []
  · rw [if_pos h, h]
  · rw [if_neg h, List.reverse_append, List.reverse_singleton, List.singleton_append, trimLeft,
      List.dropWhile_cons_of_pos (by decide)]
    rfl

/-- The last element with a property splits a list in two. -/
theorem exists_last_with {p : Str → Bool} :
    ∀ ls : List Str, (∃ l ∈ ls, p l = true) →
      ∃ A l B, ls = A ++ l :: B ∧ p l = true ∧ ∀ b ∈ B, p b = false
  | [], h => by simp at h
  | x :: xs, h => by
    by_cases hx : ∃ l ∈ xs, p l = true
    · obtain ⟨A, l, B, rfl, hl, hB⟩ := exists_last_with xs hx
      exact ⟨x :: A, l, B, rfl, hl, hB⟩
    · have hxs : ∀ b ∈ xs, p b = false := by
        intro b hb
        by_contra hne
        exact hx ⟨b, hb, by simpa using hne⟩
      obtain ⟨l, hl, hpl⟩ := h
      rcases List.mem_cons.mp hl with rfl | hl
      · exact ⟨[], l, xs, rfl, hpl, hxs⟩
      · exact absurd hpl (by simp [hxs l hl])

/-! ## Lemmas on the rendering -/

/-- The text of `getAsciiDoc`, step by step, on the block left by the post split. -/
theorem getAsciiDoc_text (ToLower : Str → Str) (fl : Flags) (d : docOutput) :
    (getAsciiDoc ToLower fl d).1 =
      openTag fl (processPost d) ++ headLines fl (processPost d) ++
        writeLines (processPost d).body ++ goBlock ToLower fl (processPost d) ++
        (if (processPost d).apidocs && !fl.skipJSON then jsonBlock ToLower fl (processPost d)
          else []) ++
        (if (processPost d).postTitle ≠ [] then
          postSection (processPost d).postTitle (processPost d).post else []) ++
        closeTag fl (processPost d) := by
  unfold getAsciiDoc openTag closeTag headLines goBlock jsonBlock postSection
  by_cases h1 : fl.noOuterTags = true <;> by_cases h2 : fl.noPageBreaks = true <;>
    by_cases h3 : fl.noHeadings = true <;>
    by_cases h4 : ((processPost d).apidocs && !fl.skipJSON) = true <;>
    by_cases h5 : (processPost d).postTitle = [] <;>
    simp only [h1, h2, h3, h4, h5, Bool.not_true, Bool.not_false, Bool.false_eq_true, if_true,
      if_false, ne_eq, not_true_eq_false, not_false_eq_true, List.nil_append, List.append_assoc,
      List.append_nil]

theorem getAsciiDoc_block (ToLower : Str → Str) (fl : Flags) (d : docOutput) :
    (getAsciiDoc ToLower fl d).2 = processPost d := rfl

/-! ## The body lines the extractor stores -/

theorem dropWhile_head_not (p : Char → Bool) :
    ∀ (l : Str), ∀ c ∈ (l.dropWhile p).head?, p c = false
  | [], c, hc => by simp at hc
  | x :: l, c, hc => by
    by_cases hx : p x = true
    · rw [List.dropWhile_cons_of_pos hx] at hc
      exact dropWhile_head_not p l c hc
    · rw [List.dropWhile_cons_of_neg hx] at hc
      simp only [List.head?_cons, Option.mem_def, Option.some.injEq] at hc
      subst hc
      simpa using hx

theorem getLast?_of_suffix {t r : Str} (h : t <:+ r) (hne : t ≠ []) :
    t.getLast? = r.getLast? := by
  obtain ⟨k, rfl⟩ := h
  rw [List.getLast?_append]
  cases ht : t.getLast? with
  | none => exact absurd (List.getLast?_eq_none_iff.mp ht) hne
  | some x => rfl

/-- What a trim leaves has no character of the cutset at either end. -/
theorem trim_head_last (s cut : Str) :
    (∀ c ∈ (trim s cut).head?, cut.elem c = false) ∧
    (∀ c ∈ (trim s cut).getLast?, cut.elem c = false) := by
  refine ⟨dropWhile_head_not _ _, ?_⟩
  intro c hc
  by_cases hne : trim s cut = []
  · rw [hne] at hc
    simp at hc
  · have hsuf : trim s cut <:+ trimRight s cut := List.dropWhile_suffix _
    rw [getLast?_of_suffix hsuf hne, trimRight, List.getLast?_reverse] at hc
    exact dropWhile_head_not _ _ c hc

theorem trim_idem (s cut : Str) : trim (trim s cut) cut = trim s cut :=
  trim_eq_self (trim_head_last s cut).1 (trim_head_last s cut).2

/-- One turn of the scan keeps `post` and `postTitle`, and a body of
space-trimmed lines stays one. -/
theorem scanLine_body_trimmed {l : Str} {d d' : docOutput} (h : scanLine l d = some d')
    (hb : ∀ x ∈ d.body, trim x mSpace = x) :
    d'.post = d.post ∧ d'.postTitle = d.postTitle ∧ ∀ x ∈ d'.body, trim x mSpace = x := by
  rw [scanLine_raw] at h
  split at h
  · cases h
    refine ⟨?_, ?_, ?_⟩ <;> split <;> first | rfl | exact hb
  · split at h
    · cases h
    · split at h
      · split at h
        · cases h; exact ⟨rfl, rfl, hb⟩
        · split at h
          · cases h; exact ⟨rfl, rfl, hb⟩
          · cases h
            refine ⟨rfl, rfl, ?_⟩
            intro x hx
            simp only [List.mem_append, List.mem_singleton] at hx
            rcases hx with hx | rfl
            · exact hb x hx
            · exact trim_idem _ _
      · cases h; exact ⟨rfl, rfl, hb⟩

theorem scanLines_body_trimmed : ∀ (ls : List Str) (d : docOutput),
    (∀ x ∈ d.body, trim x mSpace = x) →
    (scanLines ls d).post = d.post ∧ (scanLines ls d).postTitle = d.postTitle ∧
      ∀ x ∈ (scanLines ls d).body, trim x mSpace = x
  | [], _, hb => ⟨rfl, rfl, hb⟩
  | l :: ls, d, hb => by
    rw [scanLines]
    cases h : scanLine l d with
    | none => exact ⟨rfl, rfl, hb⟩
    | some d' =>
      simp only []
      obtain ⟨h1, h2, h3⟩ := scanLine_body_trimmed h hb
      obtain ⟨g1, g2, g3⟩ := scanLines_body_trimmed ls d' h3
      exact ⟨g1.trans h1, g2.trans h2, g3⟩

/-- The blocks handed to rendering have an empty `post` and `postTitle`, and
every body line is trimmed of spaces: it was stored as `strings.Trim(buf, " ")`. -/
theorem kept_block_body_trimmed (filePath goFilename : Str) (f : List Str)
    (ds : List docOutput) (h : extract filePath goFilename f = some ds) (d : docOutput)
    (hd : d ∈ ds) :
    d.post = [] ∧ d.postTitle = [] ∧ ∀ x ∈ d.body, trim x mSpace = x := by
  rw [extract_eq_specBlocks] at h
  cases h
  obtain ⟨hm, -⟩ := List.mem_filter.mp hd
  obtain ⟨i, -, he⟩ := List.mem_filterMap.mp hm
  unfold extractAt at he
  cases hc : candidate filePath goFilename f i with
  | none => rw [hc] at he; cases he
  | some o =>
    rw [hc] at he
    cases o with
    | stop => cases he
    | skip => cases he
    | scanned doc =>
      simp only [Option.some.injEq] at he
      subst he
      unfold candidate at hc
      split at hc
      · cases hc
      · split at hc
        · cases hc
        · split at hc
          · cases hc
          · split at hc
            · cases hc
            · split at hc
              · cases hc
              · simp only [Option.some.injEq, Outcome.scanned.injEq] at hc
                subst hc
                exact scanLines_body_trimmed _ _ (by simp [newDocOutput])

/-! ## The post section -/

/-- C11 (Scenario C): for a block with empty `post` whose body lines are trimmed
of spaces (as the extractor stores them) and whose body is
`A ++ ["startpostdocs " ++ T] ++ P ++ ["endpostdocs"] ++ B`, no line of `A`, `P`,
`B` containing a post marker, `processPost` gives `body = A ++ B`, `post = P` and
the non-empty `postTitle = T` trimmed of spaces; the rendered text is the
opening tag, the head lines, the lines of `A ++ B`, the inclusion blocks, the
heading `=== <postTitle>` followed by the lines of `P`, and the closing tag. -/
theorem post_split_scenario_C (ToLower : Str → Str) (fl : Flags) (d : docOutput)
    (A P B : List Str) (T : Str) (hpost : d.post = [])
    (htrim : ∀ l ∈ d.body, trim l mSpace = l)
    (hbody : d.body = A ++ [mStartpostdocs ++ ' ' :: T] ++ P ++ [mEndpostdocs] ++ B)
    (hA : ∀ l ∈ A, contains l mStartpostdocs = false ∧ contains l mEndpostdocs = false)
    (hP : ∀ l ∈ P, contains l mStartpostdocs = false ∧ contains l mEndpostdocs = false)
    (hB : ∀ l ∈ B, contains l mStartpostdocs = false ∧ contains l mEndpostdocs = false) :
    (processPost d).body = A ++ B ∧ (processPost d).post = P ∧
    (processPost d).postTitle = trim T mSpace ∧ (processPost d).postTitle ≠ [] ∧
    (getAsciiDoc ToLower fl d).1 =
      openTag fl d ++ headLines fl d ++ writeLines (A ++ B) ++ goBlock ToLower fl d ++
        (if d.apidocs && !fl.skipJSON then jsonBlock ToLower fl d else []) ++
        ("\n=== ".toList ++ trim T mSpace ++ "\n".toList ++ writeLines P ++ "\n".toList) ++
        closeTag fl d := by
  have hs : contains (mStartpostdocs ++ ' ' :: T) mStartpostdocs = true := by
    rw [contains_iff_sub]
    exact ⟨[], ' ' :: T, by simp⟩
  have hts : trimPrefix (mStartpostdocs ++ ' ' :: T) mStartpostdocs = ' ' :: T := by
    simp [trimPrefix, hasPrefix, mStartpostdocs, List.isPrefixOf]
  have hpp : processPost d =
      { d with body := A ++ B, post := P, postTitle := trim T mSpace } := by
    unfold processPost
    rw [hbody, hpost]
    simp only [List.foldl_append, List.foldl_cons, List.foldl_nil]
    rw [foldl_postStep_other A _ hA]
    simp only [Bool.false_and, Bool.false_eq_true, if_false, List.nil_append]
    rw [postStep_start hs, hts, trim_space_cons_eq, foldl_postStep_other P _ hP]
    simp only [Bool.not_false, Bool.and_self, if_true, List.nil_append]
    rw [postStep_end (by decide) (by decide), foldl_postStep_other B _ hB]
    simp
  -- the marker line is trimmed, so `T` ends in a character that is not a space
  have hT : trim T mSpace ≠ [] := by
    have hmem : (mStartpostdocs ++ ' ' :: T) ∈ d.body := by
      rw [hbody]; simp
    have hl := (trim_head_last (mStartpostdocs ++ ' ' :: T) mSpace).2
    rw [htrim _ hmem, List.getLast?_append] at hl
    cases T with
    | nil => exact absurd (hl ' ' (by simp)) (by decide)
    | cons a T =>
      have hl' : ∀ c ∈ (a :: T).getLast?, mSpace.elem c = false := by
        intro c hc
        apply hl c
        rw [List.getLast?_cons_cons]
        cases hx : (a :: T).getLast? with
        | none => rw [hx] at hc; simp at hc
        | some x => rw [hx] at hc; simpa using hc
      intro hnil
      unfold trim at hnil
      rw [trimRight_eq_self hl', trimLeft, List.dropWhile_eq_nil_iff] at hnil
      cases hx : (a :: T).getLast? with
      | none => simp at hx
      | some x =>
        have h1 := hl' x hx
        have h2 := hnil x (List.mem_of_getLast?_eq_some hx)
        rw [h1] at h2
        cases h2
  refine ⟨by rw [hpp], by rw [hpp], by rw [hpp], by rw [hpp]; exact hT, ?_⟩
  have hpt : (processPost d).postTitle ≠ [] := by rw [hpp]; exact hT
  rw [getAsciiDoc_text, if_pos hpt, hpp]
  rfl

theorem post_split_scenario_C_witness :
    (processPost
      { body := ["a".toList] ++ [mStartpostdocs ++ ' ' :: " Notes".toList] ++ ["p1".toList] ++
          [mEndpostdocs] ++ ["b".toList] }).body = ["a".toList] ++ ["b".toList] ∧
    (processPost
      { body := ["a".toList] ++ [mStartpostdocs ++ ' ' :: " Notes".toList] ++ ["p1".toList] ++
          [mEndpostdocs] ++ ["b".toList] }).post = ["p1".toList] ∧
    (processPost
      { body := ["a".toList] ++ [mStartpostdocs ++ ' ' :: " Notes".toList] ++ ["p1".toList] ++
          [mEndpostdocs] ++ ["b".toList] }).postTitle = "Notes".toList ∧
    (getAsciiDoc (List.map Char.toLower) { noPageBreaks := true }
      { title := "T".toList, funcName := "F".toList, goFilename := "x_test.go".toList,
        body := ["a".toList] ++ [mStartpostdocs ++ ' ' :: " Notes".toList] ++ ["p1".toList] ++
          [mEndpostdocs] ++ ["b".toList] }).1 =
      ("// tag::F[]\n== T\na\nb\n\n[#t_f_go]\n.Go T\n[source,go]\n----\n" ++
        "include::x_test.go[tag=F,indent=0]\n----\n\n=== Notes\np1\n\n// end::F[]\n").toList :=
  have h := post_split_scenario_C (List.map Char.toLower) { noPageBreaks := true }
    { title := "T".toList, funcName := "F".toList, goFilename := "x_test.go".toList,
      body := ["a".toList] ++ [mStartpostdocs ++ ' ' :: " Notes".toList] ++ ["p1".toList] ++
        [mEndpostdocs] ++ ["b".toList] }
    ["a".toList] ["p1".toList] ["b".toList] " Notes".toList rfl (by decide) rfl (by decide)
    (by decide) (by decide)
  ⟨h.1, h.2.1, h.2.2.1.trans (by decide), h.2.2.2.2.trans (by decide)⟩

/-- C12 fails: without any post-start marker, a body line with the post-end
marker is still dropped from the body. -/
theorem end_marker_line_dropped_without_start :
    (processPost { body := ["a".toList, "endpostdocs".toList, "b".toList] }).body =
      ["a".toList, "b".toList] := by
  decide

/-- C12, amended: when no body line contains `startpostdocs`, `processPost`
leaves `post` and `postTitle` as they were (empty when they were empty) and the
body is the original one without the lines that contain `endpostdocs`; the body
is unchanged when there is no such line. -/
theorem no_post_start_frame (d : docOutput)
    (h : ∀ l ∈ d.body, contains l mStartpostdocs = false) :
    (processPost d).post = d.post ∧ (processPost d).postTitle = d.postTitle ∧
    (processPost d).body = d.body.filter (fun l => !contains l mEndpostdocs) ∧
    ((processPost d).body = d.body ∨ ∃ l ∈ d.body, contains l mEndpostdocs = true) := by
  rw [processPost_no_start h]
  refine ⟨rfl, rfl, rfl, ?_⟩
  by_cases he : ∃ l ∈ d.body, contains l mEndpostdocs = true
  · exact Or.inr he
  · left
    show d.body.filter (fun l => !contains l mEndpostdocs) = d.body
    rw [List.filter_eq_self]
    intro l hl
    by_contra hc
    exact he ⟨l, hl, by simpa using hc⟩

theorem no_post_start_frame_witness :
    (processPost { body := ["a".toList, "b".toList] }).post = [] ∧
    (processPost { body := ["a".toList, "b".toList] }).postTitle = [] ∧
    (processPost { body := ["a".toList, "b".toList] }).body =
      ["a".toList, "b".toList].filter (fun l => !contains l mEndpostdocs) :=
  have h := no_post_start_frame { body := ["a".toList, "b".toList] } (by decide)
  ⟨h.1, h.2.1, h.2.2.1⟩

/-- C13 fails: a post-start marker without a title moves lines into `post` and
leaves `postTitle` empty. -/
theorem post_lines_without_title :
    (processPost { body := ["startpostdocs".toList, "x".toList, "endpostdocs".toList] }).post =
      ["x".toList] ∧
    (processPost
      { body := ["startpostdocs".toList, "x".toList, "endpostdocs".toList] }).postTitle = [] := by
  decide

/-- C13, amended: starting from an empty `post`, if `post` is non-empty after
`processPost` then the body held a line with `startpostdocs`, and `postTitle` is
taken from the last such line: the line without a leading `startpostdocs`,
trimmed of spaces (which may be empty). -/
theorem post_nonempty_has_start_marker (d : docOutput) (h0 : d.post = [])
    (hp : (processPost d).post ≠ []) :
    ∃ (A : List Str) (l : Str) (B : List Str), d.body = A ++ l :: B ∧
      contains l mStartpostdocs = true ∧ (∀ b ∈ B, contains b mStartpostdocs = false) ∧
      (processPost d).postTitle = trim (trimPrefix l mStartpostdocs) mSpace := by
  have hex : ∃ l ∈ d.body, contains l mStartpostdocs = true := by
    by_contra hne
    apply hp
    have hall : ∀ l ∈ d.body, contains l mStartpostdocs = false := by
      intro l hl
      by_contra hc
      exact hne ⟨l, hl, by simpa using hc⟩
    rw [processPost_no_start hall]
    exact h0
  obtain ⟨A, l, B, hb, hl, hB⟩ := exists_last_with d.body hex
  refine ⟨A, l, B, hb, hl, hB, ?_⟩
  unfold processPost
  rw [hb]
  simp only [List.foldl_append, List.foldl_cons]
  rw [foldl_postStep_postTitle B _ hB, postStep_start hl]

theorem post_nonempty_has_start_marker_witness :
    ∃ (A : List Str) (l : Str) (B : List Str),
      ["a".toList, "startpostdocs Notes".toList, "p".toList] = A ++ l :: B ∧
      contains l mStartpostdocs = true ∧ (∀ b ∈ B, contains b mStartpostdocs = false) ∧
      (processPost { body := ["a".toList, "startpostdocs Notes".toList, "p".toList] }).postTitle =
        trim (trimPrefix l mStartpostdocs) mSpace :=
  post_nonempty_has_start_marker { body := ["a".toList, "startpostdocs Notes".toList, "p".toList] }
    rfl (by decide)

/-- C14: the body `processPost` produces has no line with `startpostdocs` or
`endpostdocs`, and a second run changes nothing: body, post and postTitle (the
whole block) after two runs are those after one run. -/
theorem processPost_idempotent (d : docOutput) :
    (∀ l ∈ (processPost d).body,
      contains l mStartpostdocs = false ∧ contains l mEndpostdocs = false) ∧
    processPost (processPost d) = processPost d ∧
    (processPost (processPost d)).body = (processPost d).body ∧
    (processPost (processPost d)).post = (processPost d).post ∧
    (processPost (processPost d)).postTitle = (processPost d).postTitle := by
  have h := processPost_idem d
  exact ⟨processPost_body_clean d, h, by rw [h], by rw [h], by rw [h]⟩

/-! ## Rendering -/

/-- C15: a second call of `getAsciiDoc`, on the block as the first call left
it and with the same flags, returns the same text and leaves the same block;
the text is a function of the block and the flags alone. -/
theorem getAsciiDoc_repeatable (ToLower : Str → Str) (fl : Flags) (d : docOutput) :
    (getAsciiDoc ToLower fl (getAsciiDoc ToLower fl d).2).1 = (getAsciiDoc ToLower fl d).1 ∧
    (getAsciiDoc ToLower fl (getAsciiDoc ToLower fl d).2).2 = (getAsciiDoc ToLower fl d).2 := by
  simp only [getAsciiDoc_text, getAsciiDoc_block, processPost_idem, and_self]


/-- C16: the sample-data block is emitted exactly when `apidocs` is set and
`skipJSON` is off.  With `apidocs = false` the text is the same for both values
of `skipJSON` and the same as with `apidocs = true` under `skipJSON`; with
`apidocs = true` and `skipJSON` off it is that text with the sample-data block
(anchor `[#..._json]`, caption `.JSON <title>`, `[source,json]`, the include
directive of the sample-data file) put right after the Go inclusion block. -/
theorem sample_data_block_iff (ToLower : Str → Str) (fl : Flags) (d : docOutput) :
    (getAsciiDoc ToLower { fl with skipJSON := true } { d with apidocs := false }).1 =
      (getAsciiDoc ToLower { fl with skipJSON := false } { d with apidocs := false }).1 ∧
    (getAsciiDoc ToLower { fl with skipJSON := true } { d with apidocs := true }).1 =
      (getAsciiDoc ToLower { fl with skipJSON := false } { d with apidocs := false }).1 ∧
    (∃ hd tl : Str,
      (getAsciiDoc ToLower { fl with skipJSON := false } { d with apidocs := false }).1 =
        hd ++ goBlock ToLower fl d ++ tl ∧
      (getAsciiDoc ToLower { fl with skipJSON := false } { d with apidocs := true }).1 =
        hd ++ goBlock ToLower fl d ++ jsonBlock ToLower fl d ++ tl) ∧
    jsonBlock ToLower fl d =
      "\n[#".toList ++ ToLower d.title ++ "_".toList ++ ToLower d.funcName ++ "_json]".toList ++
        "\n.JSON ".toList ++ d.title ++ "\n[source,json]\n".toList ++ "----\n".toList ++
        ("include::".toList ++ getIncludePath fl d d.jsonFilename ++ "[tag=".toList ++
          d.funcName ++ "]".toList) ++ "\n----\n".toList := by
  have hg : ∀ (s a : Bool), goBlock ToLower { fl with skipJSON := s }
      (processPost { d with apidocs := a }) = goBlock ToLower fl d := fun _ _ => rfl
  have hj : ∀ (s a : Bool), jsonBlock ToLower { fl with skipJSON := s }
      (processPost { d with apidocs := a }) = jsonBlock ToLower fl d := fun _ _ => rfl
  have ho : ∀ (s a : Bool), openTag { fl with skipJSON := s }
      (processPost { d with apidocs := a }) = openTag fl (processPost d) := fun _ _ => rfl
  have hc : ∀ (s a : Bool), closeTag { fl with skipJSON := s }
      (processPost { d with apidocs := a }) = closeTag fl (processPost d) := fun _ _ => rfl
  have hh : ∀ (s a : Bool), headLines { fl with skipJSON := s }
      (processPost { d with apidocs := a }) = headLines fl (processPost d) := fun _ _ => rfl
  have hb : ∀ a : Bool, (processPost { d with apidocs := a }).body = (processPost d).body :=
    fun _ => rfl
  have hpt : ∀ a : Bool, (processPost { d with apidocs := a }).postTitle =
      (processPost d).postTitle := fun _ => rfl
  have hpo : ∀ a : Bool, (processPost { d with apidocs := a }).post = (processPost d).post :=
    fun _ => rfl
  have ha : ∀ a : Bool, (processPost { d with apidocs := a }).apidocs = a := fun _ => rfl
  refine ⟨?_, ?_, ⟨openTag fl (processPost d) ++ headLines fl (processPost d) ++
      writeLines (processPost d).body,
    (if (processPost d).postTitle ≠ [] then
      postSection (processPost d).postTitle (processPost d).post else []) ++
      closeTag fl (processPost d), ?_, ?_⟩, rfl⟩ <;>
    simp only [getAsciiDoc_text, hg, hj, ho, hc, hh, hb, hpt, hpo, ha, Bool.false_and,
      Bool.true_and, Bool.not_true, Bool.not_false, Bool.false_eq_true, if_false, if_true,
      List.append_nil, List.append_assoc]

/-! ## Include paths -/

/-- C17 (Scenario E): with a literal prefix `P` (Antora mode off),
`getIncludePath(filename)` is `P ++ filename`, so the two include directives are
`include::P<goFilename>[tag=<funcName>,indent=0]` and
`include::P<jsonFilename>[tag=<funcName>]`, whatever the directory of the input file. -/
theorem literal_prefix_paths (fl : Flags) (d : docOutput) (filename dir : Str)
    (ha : fl.antora = false) (hP : fl.includePrefix ≠ []) :
    getIncludePath fl d filename = fl.includePrefix ++ filename ∧
    getGoInclude fl d =
      "include::".toList ++ fl.includePrefix ++ d.goFilename ++ "[tag=".toList ++ d.funcName ++
        ",indent=0]".toList ∧
    getJsonInclude fl d =
      "include::".toList ++ fl.includePrefix ++ d.jsonFilename ++ "[tag=".toList ++ d.funcName ++
        "]".toList ∧
    getIncludePath fl { d with path := dir } filename = getIncludePath fl d filename := by
  have h : ∀ (e : docOutput) (fn : Str), getIncludePath fl e fn = fl.includePrefix ++ fn := by
    intro e fn
    simp [getIncludePath, ha, hP]
  refine ⟨h d filename, ?_, ?_, ?_⟩
  · simp only [getGoInclude, h, List.append_assoc]
  · simp only [getJsonInclude, h, List.append_assoc]
  · rw [h, h]

theorem literal_prefix_paths_witness :
    getIncludePath { includePrefix := "example$".toList } { path := "/home/me/pkg/".toList }
      "api_test.go".toList = "example$".toList ++ "api_test.go".toList :=
  (literal_prefix_paths { includePrefix := "example$".toList } { path := "/home/me/pkg/".toList }
    "api_test.go".toList [] rfl (by decide)).1

/-- C18 fails: relative to `/a/b`, the file `/c/d/x_test.go` outside that tree
gets the relative path `../../c/d/x_test.go`, not the joined path. -/
theorem outside_tree_gets_dotdot_path :
    getIncludePath { relativeTo := "/a/b".toList } { path := "/c/d/".toList }
      "x_test.go".toList = "../../c/d/x_test.go".toList ∧
    pathJoin "/c/d/".toList "x_test.go".toList = "/c/d/x_test.go".toList := by
  decide

/-- C18, amended: in relative-to mode alone, `getIncludePath` returns the path
`filepath.Rel` computes from the base directory to the joined path when it
computes one, and the joined path when `filepath.Rel` fails; it fails, and the
joined path is returned, whenever exactly one of the two paths is rooted. -/
theorem relative_to_fallback (fl : Flags) (d : docOutput) (filename : Str)
    (ha : fl.antora = false) (hp : fl.includePrefix = []) (hr : fl.relativeTo ≠ []) :
    getIncludePath fl d filename =
      (filepathRel fl.relativeTo (pathJoin d.path filename)).getD (pathJoin d.path filename) ∧
    (getIncludePath fl d filename = pathJoin d.path filename ∨
      hasPrefix (pathClean fl.relativeTo) "/".toList =
        hasPrefix (pathClean (pathJoin d.path filename)) "/".toList) := by
  have h1 : getIncludePath fl d filename =
      (filepathRel fl.relativeTo (pathJoin d.path filename)).getD (pathJoin d.path filename) := by
    simp only [getIncludePath, ha, hp, hr, Bool.false_eq_true, if_false, ne_eq,
      not_true_eq_false, not_false_eq_true, if_true]
    cases filepathRel fl.relativeTo (pathJoin d.path filename) <;> rfl
  refine ⟨h1, ?_⟩
  by_cases hs : hasPrefix (pathClean fl.relativeTo) "/".toList =
      hasPrefix (pathClean (pathJoin d.path filename)) "/".toList
  · exact Or.inr hs
  · left
    rw [h1]
    have hne : pathClean (pathJoin d.path filename) ≠ pathClean fl.relativeTo := by
      intro he
      rw [he] at hs
      exact hs rfl
    have hb : hasPrefix (if pathClean fl.relativeTo = ".".toList then []
        else pathClean fl.relativeTo) "/".toList = hasPrefix (pathClean fl.relativeTo) "/".toList := by
      split
      · rename_i hdot
        rw [hdot]
        rfl
      · rfl
    have hnone : filepathRel fl.relativeTo (pathJoin d.path filename) = none := by
      unfold filepathRel
      simp only [hne, if_false, hb]
      rw [if_pos hs]
    rw [hnone]
    rfl

theorem relative_to_fallback_witness :
    getIncludePath { relativeTo := "docs".toList } { path := "/c/d/".toList }
      "x_test.go".toList = "/c/d/x_test.go".toList ∧
    getIncludePath { relativeTo := "/c".toList } { path := "/c/d/".toList }
      "x_test.go".toList = "d/x_test.go".toList :=
  ⟨((relative_to_fallback { relativeTo := "docs".toList } { path := "/c/d/".toList }
      "x_test.go".toList rfl rfl (by decide)).1).trans (by decide),
   ((relative_to_fallback { relativeTo := "/c".toList } { path := "/c/d/".toList }
      "x_test.go".toList rfl rfl (by decide)).1).trans (by decide)⟩


theorem mTestGo_eq : mTestGo = ['_', 't', 'e', 's', 't', '.', 'g', 'o'] := rfl

/-- Past a name without `_test.go`, the `_test.go` that ends the file name is the first one. -/
theorem noMatchIn_mTestGo {B : Str} (Q : Str) (h : contains B mTestGo = false) :
    NoMatchIn mTestGo B (mTestGo ++ Q) := by
  intro t ht hsuf hpre
  rw [contains_eq_false_iff] at h
  apply h
  rw [mTestGo_eq] at hpre ⊢
  match t, ht with
  | [a], _ => simp [List.cons_prefix_cons] at hpre
  | [a, b], _ => simp [List.cons_prefix_cons] at hpre
  | [a, b, c], _ => simp [List.cons_prefix_cons] at hpre
  | [a, b, c, d], _ => simp [List.cons_prefix_cons] at hpre
  | [a, b, c, d, e], _ => simp [List.cons_prefix_cons] at hpre
  | [a, b, c, d, e, f], _ => simp [List.cons_prefix_cons] at hpre
  | [a, b, c, d, e, f, g], _ => simp [List.cons_prefix_cons] at hpre
  | a :: b :: c :: d :: e :: f :: g :: i :: t, _ =>
    simp only [List.cons_append, List.cons_prefix_cons] at hpre
    obtain ⟨rfl, rfl, rfl, rfl, rfl, rfl, rfl, rfl, -⟩ := hpre
    exact (List.prefix_append ['_', 't', 'e', 's', 't', '.', 'g', 'o'] t).isInfix.trans
      hsuf.isInfix

/-- C19: for a base name `B` without `_test.go`, `newDocOutput(path, B ++ "_test.go")`
has `jsonFilename = B ++ ".apisamples"`, and this is the file the sample-data
include directive names. -/
theorem jsonFilename_of_test_file (fl : Flags) (filePath B N : Str)
    (h : contains B mTestGo = false) :
    (newDocOutput filePath (B ++ mTestGo)).jsonFilename = B ++ mApisamples ∧
    getJsonInclude fl { newDocOutput filePath (B ++ mTestGo) with funcName := N } =
      "include::".toList ++
        getIncludePath fl { newDocOutput filePath (B ++ mTestGo) with funcName := N }
          (B ++ ".apisamples".toList) ++
        "[tag=".toList ++ N ++ "]".toList := by
  have hs : split (B ++ mTestGo) mTestGo = B :: split [] mTestGo := by
    have := split_at_first (by decide : mTestGo ≠ []) (noMatchIn_mTestGo [] h)
    simpa using this
  have hj : (newDocOutput filePath (B ++ mTestGo)).jsonFilename = B ++ mApisamples := by
    simp only [newDocOutput, hs, List.headD_cons]
  refine ⟨hj, ?_⟩
  simp only [getJsonInclude]
  rw [hj]
  rfl

theorem jsonFilename_of_test_file_witness :
    (newDocOutput "/src/".toList ("api".toList ++ mTestGo)).jsonFilename =
      "api".toList ++ mApisamples :=
  (jsonFilename_of_test_file {} "/src/".toList "api".toList [] (by decide)).1

/-! ## Several start markers in one scan -/

theorem scanLine_start {l : Str} (h : hasStartMarker l = true) (d : docOutput) :
    scanLine l d =
      some { d with apidocs := d.apidocs || contains l mStartapidocs, title := startTitle l } := by
  rw [scanLine_raw, if_pos h]
  cases contains l mStartapidocs <;> simp [startTitle]

theorem scanLine_no_start {l : Str} (h : hasStartMarker l = false) (d d' : docOutput)
    (hd : scanLine l d = some d') : d'.title = d.title ∧ d'.apidocs = d.apidocs := by
  rw [scanLine_raw, h] at hd
  simp only [Bool.false_eq_true, if_false] at hd
  split at hd
  · cases hd
  · split at hd
    · split at hd
      · cases hd; exact ⟨rfl, rfl⟩
      · split at hd <;> cases hd <;> exact ⟨rfl, rfl⟩
    · cases hd; exact ⟨rfl, rfl⟩

/-- Lines without a block-start marker change neither the title nor `apidocs`. -/
theorem scanLines_no_start : ∀ (B : List Str) (d : docOutput),
    (∀ b ∈ B, hasStartMarker b = false) →
    (scanLines B d).title = d.title ∧ (scanLines B d).apidocs = d.apidocs
  | [], _, _ => ⟨rfl, rfl⟩
  | b :: B, d, h => by
    rw [scanLines]
    cases hb : scanLine b d with
    | none => exact ⟨rfl, rfl⟩
    | some d' =>
      simp only []
      have h1 := scanLine_no_start (h b (by simp)) d d' hb
      have h2 := scanLines_no_start B d' (fun x hx => h x (by simp [hx]))
      exact ⟨h2.1.trans h1.1, h2.2.trans h1.2⟩

/-- A scan runs through lines none of which ends it. -/
theorem scanLines_append (C : List Str) : ∀ (A : List Str) (d : docOutput),
    (∀ a ∈ A, isEndLine a = false) → scanLines (A ++ C) d = scanLines C (scanLines A d)
  | [], _, _ => rfl
  | a :: A, d, h => by
    rw [List.cons_append, scanLines, scanLines]
    cases ha : scanLine a d with
    | none =>
      have := (scanLine_eq_none_iff a d).mp ha
      rw [h a (by simp)] at this
      cases this
    | some d' =>
      simp only []
      exact scanLines_append C A d' (fun x hx => h x (by simp [hx]))

/-- Over lines none of which ends the scan, `apidocs` is set as soon as one
line contains `startapidocs`, and never reset. -/
theorem scanLines_apidocs : ∀ (A : List Str) (d : docOutput),
    (∀ a ∈ A, isEndLine a = false) →
    (scanLines A d).apidocs = (d.apidocs || A.any (fun x => contains x mStartapidocs))
  | [], d, _ => by simp [scanLines]
  | a :: A, d, h => by
    have ih := fun d' => scanLines_apidocs A d' (fun x hx => h x (by simp [hx]))
    rw [scanLines]
    by_cases hs : hasStartMarker a = true
    · rw [scanLine_start hs]
      simp only []
      rw [ih]
      simp [Bool.or_assoc]
    · rw [Bool.not_eq_true] at hs
      have hna : contains a mStartapidocs = false := by
        unfold hasStartMarker at hs
        revert hs
        cases contains a mStartapidocs <;> simp
      cases ha : scanLine a d with
      | none =>
        have := (scanLine_eq_none_iff a d).mp ha
        rw [h a (by simp)] at this
        cases this
      | some d' =>
        simp only []
        rw [ih, (scanLine_no_start hs d d' ha).2]
        simp [hna]

/-- C20: when a scan passes several lines with a block-start marker, the title
is the one of the last such line; that line keeps the body accumulated before
it, and `apidocs` is set when the block had it set or any start-marker line met
so far contains `startapidocs`. -/
theorem last_start_marker_sets_title (A : List Str) (l : Str) (B : List Str) (d : docOutput)
    (hl : hasStartMarker l = true) (hA : ∀ a ∈ A, isEndLine a = false)
    (hB : ∀ b ∈ B, hasStartMarker b = false) :
    (scanLines (A ++ l :: B) d).title = startTitle l ∧
    (scanLines (A ++ [l]) d).body = (scanLines A d).body ∧
    (scanLines (A ++ l :: B) d).apidocs =
      (d.apidocs || (A ++ [l]).any (fun x => contains x mStartapidocs)) := by
  have hstep : ∀ C : List Str, scanLines (A ++ l :: C) d =
      scanLines C { scanLines A d with
        apidocs := (scanLines A d).apidocs || contains l mStartapidocs,
        title := startTitle l } := by
    intro C
    rw [scanLines_append (l :: C) A d hA, scanLines, scanLine_start hl]
  have hB' := scanLines_no_start B { scanLines A d with
    apidocs := (scanLines A d).apidocs || contains l mStartapidocs,
    title := startTitle l } hB
  refine ⟨?_, ?_, ?_⟩
  · rw [hstep, hB'.1]
  · rw [hstep]
    rfl
  · rw [hstep, hB'.2]
    simp only []
    rw [scanLines_apidocs A d hA]
    simp [Bool.or_assoc]

theorem last_start_marker_sets_title_witness :
    (scanLines (["\t// startapidocs One".toList, "\t// a".toList] ++
      "\t// startdocs Two".toList :: ["\t// b".toList]) {}).title = "Two".toList ∧
    (scanLines (["\t// startapidocs One".toList, "\t// a".toList] ++
      ["\t// startdocs Two".toList]) {}).body = ["a".toList] ∧
    (scanLines (["\t// startapidocs One".toList, "\t// a".toList] ++
      "\t// startdocs Two".toList :: ["\t// b".toList]) {}).apidocs = true :=
  have h := last_start_marker_sets_title ["\t// startapidocs One".toList, "\t// a".toList]
    "\t// startdocs Two".toList ["\t// b".toList] {} (by decide) (by decide) (by decide)
  ⟨h.1.trans (by decide), h.2.1.trans (by decide), h.2.2.trans (by decide)⟩

end Code2Asciidoc
